import Mathlib

/-!
# memwatch: a verification development

A shallow embedding of `src/main.cpp` (the whole program) and proofs of its
specified properties.

Conventions of the embedding:

* C++ strings and the text of files and output streams are `List Char`
  (`Str`); a literal is written `"...".toList`.
* `ssize_t`, `long` and `int` values are `Int`; the ranges of the machine
  types appear as explicit bounds, and signed arithmetic that could leave
  the range is wrapped explicitly (`wrapLong`).
* Standard output and standard error are the two components of `Output`.
-/

namespace Memwatch

/-- Text: the contents of a `std::string`, a file or an output stream. -/
abbrev Str := List Char

/-! ## `humanFriendlyBytes` (main.cpp, lines 11-21) -/

/-- The function `humanFriendlyBytes` of main.cpp: `bytes / k` is C++ integer
division, which truncates towards zero (`Int.tdiv`). -/
def humanFriendlyBytes (bytes : Int) : Int × Str :=
  if bytes < 1024 then
    (bytes, "bytes".toList)
  else if bytes < 1024 * 1024 then
    (bytes.tdiv 1024, "KiB".toList)
  else if bytes < 1024 * 1024 * 1024 then
    (bytes.tdiv (1024 * 1024), "MiB".toList)
  else
    (bytes.tdiv (1024 * 1024 * 1024), "GiB".toList)

/-- The boundary of a unit label, as the specification gives it:
bytes = 1, KiB = 1024, MiB = 1024^2, GiB = 1024^3 (0 for any other text). -/
def boundary (u : Str) : Int :=
  if u = "bytes".toList then 1
  else if u = "KiB".toList then 1024
  else if u = "MiB".toList then 1024 ^ 2
  else if u = "GiB".toList then 1024 ^ 3
  else 0

/-- The unit labels of the specification, smallest first. -/
def units : List Str :=
  ["bytes".toList, "KiB".toList, "MiB".toList, "GiB".toList]

/-! ## Characters, numerals and text -/

/-- The `isspace` classification of the "C" locale: space, `\t`, `\n`, `\v`,
`\f`, `\r`. It is what `operator>>` skips and what `strtol` skips. -/
def isSpace (c : Char) : Bool :=
  c = ' ' || c = '\t' || c = '\n' || c = '\x0b' || c = '\x0c' || c = '\r'

/-- The value of a string of decimal digits, most significant first. -/
def digitsVal (ds : Str) : Nat :=
  ds.foldl (fun acc c => 10 * acc + (c.toNat - 48)) 0

/-- Decimal text of an integer, as `std::to_string` and `operator<<` write an
`int` or a `long`: a minus sign for a negative value, then the digits. -/
def showInt (i : Int) : Str :=
  if i < 0 then '-' :: Nat.toDigits 10 i.natAbs else Nat.toDigits 10 i.toNat

/-- An optional sign in front of a number: `(negative, remaining text)`. -/
def scanSign : Str → Bool × Str
  | [] => (false, [])
  | c :: r => if c = '-' then (true, r) else if c = '+' then (false, r) else (false, c :: r)

/-- The least value of a 32-bit `int`. -/
def INT_MIN : Int := -(2 ^ 31)

/-- The greatest value of a 32-bit `int`. -/
def INT_MAX : Int := 2 ^ 31 - 1

/-- The greatest value of a 32-bit `unsigned int`. -/
def UINT_MAX : Int := 2 ^ 32 - 1

/-- The least value of a 64-bit `long`. -/
def LONG_MIN : Int := -(2 ^ 63)

/-- The greatest value of a 64-bit `long`. -/
def LONG_MAX : Int := 2 ^ 63 - 1

/-- Two's-complement wrap of an integer into the range of a 64-bit `long`. -/
def wrapLong (x : Int) : Int := (x + 2 ^ 63) % 2 ^ 64 - 2 ^ 63

/-! ## Input streams (`std::ifstream`, `std::istringstream`) -/

/-- An input stream: the text not yet consumed and the state bits `eofbit`
and `failbit`. -/
structure IStream where
  buf : Str
  eof : Bool
  fail : Bool
deriving DecidableEq

/-- A stream freshly opened on a text. -/
def IStream.open (content : Str) : IStream := ⟨content, false, false⟩

/-- The sentry of a formatted input function (`skipws` set): a stream that is
not good gets `failbit`; otherwise leading whitespace is skipped, and reaching
the end of input while skipping sets `eofbit` and `failbit`. The result says
whether the extraction may proceed. -/
def sentry (s : IStream) : IStream × Bool :=
  if s.eof || s.fail then (⟨s.buf, s.eof, true⟩, false)
  else
    match s.buf.dropWhile isSpace with
    | [] => (⟨[], true, true⟩, false)
    | c :: r => (⟨c :: r, false, false⟩, true)

/-- The conversion of `num_get` to `long`, after the sentry: an optional sign,
then all the digits that follow. No digit: the value is 0 and `failbit` is
set. A value out of range: the nearest bound and `failbit`. Reaching the end
of the text sets `eofbit`. -/
def numGetLong (s : IStream) : IStream × Int :=
  let (neg, r) := scanSign s.buf
  let ds := r.takeWhile Char.isDigit
  let rest := r.dropWhile Char.isDigit
  if ds.isEmpty then (⟨rest, rest.isEmpty, true⟩, 0)
  else
    let v : Int := if neg then -(digitsVal ds : Int) else (digitsVal ds : Int)
    if v < LONG_MIN then (⟨rest, rest.isEmpty, true⟩, LONG_MIN)
    else if LONG_MAX < v then (⟨rest, rest.isEmpty, true⟩, LONG_MAX)
    else (⟨rest, rest.isEmpty, false⟩, v)

/-- The conversion of `num_get` to `unsigned int`, after the sentry: a
magnitude above `UINT_MAX` gives `UINT_MAX` and `failbit`; a minus sign
negates modulo `2^32`. -/
def numGetUInt (s : IStream) : IStream × Int :=
  let (neg, r) := scanSign s.buf
  let ds := r.takeWhile Char.isDigit
  let rest := r.dropWhile Char.isDigit
  if ds.isEmpty then (⟨rest, rest.isEmpty, true⟩, 0)
  else
    let m : Int := digitsVal ds
    if UINT_MAX < m then (⟨rest, rest.isEmpty, true⟩, UINT_MAX)
    else (⟨rest, rest.isEmpty, false⟩, if neg then (2 ^ 32 - m) % 2 ^ 32 else m)

/-- The extraction `is >> x` for a `long x` holding `old`: when the sentry
fails `x` keeps its value. -/
def extractLong (s : IStream) (old : Int) : IStream × Int :=
  match sentry s with
  | (s1, false) => (s1, old)
  | (s1, true) => numGetLong s1

/-- The extraction `is >> x` for an `int x` holding `old`: the value is read
as a `long` and then checked against the range of `int`. -/
def extractInt (s : IStream) (old : Int) : IStream × Int :=
  match sentry s with
  | (s1, false) => (s1, old)
  | (s1, true) =>
    let (s2, lval) := numGetLong s1
    if lval < INT_MIN then (⟨s2.buf, s2.eof, true⟩, INT_MIN)
    else if INT_MAX < lval then (⟨s2.buf, s2.eof, true⟩, INT_MAX)
    else (s2, lval)

/-- The extraction `is >> x` for an `unsigned int x` holding `old`. -/
def extractUInt (s : IStream) (old : Int) : IStream × Int :=
  match sentry s with
  | (s1, false) => (s1, old)
  | (s1, true) => numGetUInt s1

/-- The extraction `is >> str` for a `std::string` holding `old`: the
characters up to the next whitespace or the end of the text. -/
def extractString (s : IStream) (old : Str) : IStream × Str :=
  match sentry s with
  | (s1, false) => (s1, old)
  | (s1, true) =>
    let w := s1.buf.takeWhile (fun c => !isSpace c)
    let rest := s1.buf.dropWhile (fun c => !isSpace c)
    (⟨rest, rest.isEmpty, w.isEmpty⟩, w)

/-- The extraction `is >> c` for a `char c` holding `old`: one character. -/
def extractChar (s : IStream) (old : Char) : IStream × Char :=
  match sentry s with
  | (s1, false) => (s1, old)
  | (s1, true) =>
    match s1.buf with
    | [] => (⟨[], true, true⟩, old)
    | c :: r => (⟨r, false, false⟩, c)

/-- The call `getline(is, line)` for a string holding `old`: a stream that is
not good gets `failbit` and the string is kept; otherwise the string becomes
the characters before the next `\n`, which is consumed. Reaching the end of
the text sets `eofbit`, and also `failbit` when no character was extracted. -/
def getline (s : IStream) (old : Str) : IStream × Str :=
  if s.eof || s.fail then (⟨s.buf, s.eof, true⟩, old)
  else
    let l := s.buf.takeWhile (fun c => c != '\n')
    match s.buf.dropWhile (fun c => c != '\n') with
    | [] => (⟨[], true, l.isEmpty⟩, l)
    | _ :: rest => (⟨rest, false, false⟩, l)

/-! ## Output streams and the environment -/

/-- What the program has written: standard output and standard error. -/
structure Output where
  out : Str
  err : Str
deriving DecidableEq

instance : Append Output := ⟨fun a b => ⟨a.out ++ b.out, a.err ++ b.err⟩⟩

/-- Writing a text to `std::cout`. -/
def cout (s : Str) : Output := ⟨s, []⟩

/-- Writing a text to `std::cerr`. -/
def cerr (s : Str) : Output := ⟨[], s⟩

/-- The operating environment of one run. `file path` is the content of the
file at `path` when `std::ifstream` can open it and `none` when it cannot;
`pageSize` is `getpagesize()`; `clkTck` is `sysconf(_SC_CLK_TCK)`; `elapsed`
is the number of microseconds measured around the read in
`printProcessStats`; `uninitLong` and `uninitChar` are the indeterminate
contents of the local variables declared without an initial value (one index
for each such variable of the program), on which the model assumes nothing. -/
structure Env where
  file : Str → Option Str
  pageSize : Int
  clkTck : Int
  elapsed : Int
  uninitLong : Nat → Int
  uninitChar : Char

/-! ## `double` arithmetic and its default formatting

`printProcessStats` converts two `long` values to `double`, divides them and
writes the quotient with `operator<<`. The model keeps a finite `double` as a
sign, a significand and a binary exponent, rounds to 53 significant bits with
ties to even, and does not bound the exponent: quotients of two converted
64-bit integers stay within `2^-64 .. 2^64`, far inside the normal range. -/

/-- A `double`: `finite neg m e` is `(-1)^neg * m * 2^e`. -/
inductive Double where
  | finite (neg : Bool) (m : Nat) (e : Int)
  | inf (neg : Bool)
  | nan (neg : Bool)
deriving DecidableEq

/-- The number of binary digits of `n` (none for 0), counted in at most `fuel`
halvings. -/
def bitLenAux : Nat → Nat → Nat
  | 0, _ => 0
  | fuel + 1, n => if n = 0 then 0 else bitLenAux fuel (n / 2) + 1

/-- The number of binary digits of `n` (none for 0). -/
def bitLen (n : Nat) : Nat := bitLenAux n n

/-- Rounding of `n * 2^e` (plus a positive amount below `2^e` when `sticky`)
to at most 53 significant bits, to nearest, ties to even. With `sticky` the
caller passes an `n` of more than 53 bits. -/
def roundSig (n : Nat) (sticky : Bool) (e : Int) : Nat × Int :=
  if bitLen n ≤ 53 then (n, e)
  else
    let sh := bitLen n - 53
    let q := n / 2 ^ sh
    let r := n % 2 ^ sh
    let half := 2 ^ (sh - 1)
    if half < r || (r == half && (sticky || q % 2 == 1)) then (q + 1, e + sh)
    else (q, e + sh)

/-- The conversion `static_cast<double>(x)` of a `long`. -/
def Double.ofLong (x : Int) : Double :=
  let (m, e) := roundSig x.natAbs false 0
  Double.finite (decide (x < 0)) m e

/-- The division of two `double`s. A zero divisor gives an infinity, or a NaN
for `0/0` (the default NaN of x86-64, whose sign bit is set). -/
def Double.div : Double → Double → Double
  | Double.nan s, _ => Double.nan s
  | Double.finite _ _ _, Double.nan t => Double.nan t
  | Double.inf _, Double.nan t => Double.nan t
  | Double.inf _, Double.inf _ => Double.nan true
  | Double.inf s, Double.finite t _ _ => Double.inf (s != t)
  | Double.finite s _ _, Double.inf t => Double.finite (s != t) 0 0
  | Double.finite s ma ea, Double.finite t mb eb =>
    if mb = 0 then (if ma = 0 then Double.nan true else Double.inf (s != t))
    else if ma = 0 then Double.finite (s != t) 0 0
    else
      let k := 55 + bitLen mb
      let n := ma * 2 ^ k
      let (m, e) := roundSig (n / mb) (n % mb != 0) (ea - eb - (k : Int))
      Double.finite (s != t) m e

/-- The decimal exponent `⌊log10 (n / d)⌋` of a positive fraction. -/
def floorLog10 (n d : Nat) : Int :=
  if d ≤ n then ((Nat.toDigits 10 (n / d)).length : Int) - 1
  else
    -((((List.range (Nat.toDigits 10 d).length).find?
          (fun j => decide (d ≤ n * 10 ^ (j + 1)))).getD 0 : Nat) + 1 : Int)

/-- The six significant decimal digits of the positive fraction `n / d`
(rounded to nearest, ties to even) and its decimal exponent. -/
def sixDigits (n d : Nat) : Nat × Int :=
  let x := floorLog10 n d
  let num := n * 10 ^ (5 - x).toNat
  let den := d * 10 ^ (x - 5).toNat
  let q := num / den
  let r := num % den
  let q1 := if den < 2 * r || (2 * r == den && q % 2 == 1) then q + 1 else q
  if q1 = 10 ^ 6 then (10 ^ 5, x + 1) else (q1, x)

/-- A digit string without its trailing zeros. -/
def stripZeros (ds : Str) : Str :=
  (ds.reverse.dropWhile (fun c => c == '0')).reverse

/-- The text `"." ++ frac`, or nothing when `frac` is empty. -/
def pointFrac (frac : Str) : Str :=
  if frac.isEmpty then [] else '.' :: frac

/-- The magnitude `n / d > 0` in the `%g` style with precision 6. -/
def showMagnitude (n d : Nat) : Str :=
  let (q, x) := sixDigits n d
  let ds := Nat.toDigits 10 q
  if x < -4 ∨ 6 ≤ x then
    let ex := Nat.toDigits 10 x.natAbs
    ds.take 1 ++ pointFrac (stripZeros (ds.drop 1)) ++
      ('e' :: (if x < 0 then '-' else '+') :: (if ex.length < 2 then '0' :: ex else ex))
  else if 0 ≤ x then
    ds.take (x.toNat + 1) ++ pointFrac (stripZeros (ds.drop (x.toNat + 1)))
  else
    '0' :: '.' :: (List.replicate ((-x).toNat - 1) '0' ++ stripZeros ds)

/-- The text `std::cout << d` writes for a `double` with the default flags:
the `%g` conversion with precision 6. -/
def showDouble : Double → Str
  | Double.nan s => (if s then "-nan" else "nan").toList
  | Double.inf s => (if s then "-inf" else "inf").toList
  | Double.finite s m e =>
    (if s then ['-'] else []) ++
      (if m = 0 then ['0']
       else showMagnitude (m * 2 ^ e.toNat) (2 ^ (-e).toNat))

/-! ## The three reporters and `main` -/

/-- One statistic line of `printMemoryUsage`:
`label << count << " pages (" << bytes << " " << suffix << ")\n"`, where
`(bytes, suffix)` is `humanFriendlyBytes (count * pageSize)`; the product is
formed in `long`. -/
def usageLine (label : Str) (count pageSize : Int) : Str :=
  let r := humanFriendlyBytes (wrapLong (count * pageSize))
  label ++ showInt count ++ " pages (".toList ++ showInt r.1 ++ " ".toList ++ r.2
    ++ ")\n".toList

/-- The function `printMemoryUsage` of main.cpp. -/
def printMemoryUsage (env : Env) (pid : Int) : Output :=
  let statmPath := "/proc/".toList ++ showInt pid ++ "/statm".toList
  match env.file statmPath with
  | none => cerr ("Error: Could not open ".toList ++ statmPath ++ "\n".toList)
  | some content =>
    let line := (getline (IStream.open content) []).2
    let iss := IStream.open line
    let (iss, size) := extractLong iss (env.uninitLong 0)
    let (iss, resident) := extractLong iss (env.uninitLong 1)
    let (iss, shared) := extractLong iss (env.uninitLong 2)
    let (iss, text) := extractLong iss (env.uninitLong 3)
    let (iss, _lib) := extractLong iss (env.uninitLong 4)
    let (iss, data) := extractLong iss (env.uninitLong 5)
    let (_, _dirty) := extractLong iss (env.uninitLong 6)
    let pageSize := env.pageSize
    cout ("Memory Usage Statistics for Process ".toList ++ showInt pid ++ ":\n".toList)
      ++ cout (usageLine "Virtual:      ".toList size pageSize)
      ++ cout (usageLine "Resident:     ".toList resident pageSize)
      ++ cout (usageLine "Shared:       ".toList shared pageSize)
      ++ cout (usageLine "Text (Code):  ".toList text pageSize)
      ++ cout (usageLine "Data + Stack: ".toList data pageSize)

/-- The function `printProcessStats` of main.cpp. The parameter `pid` is
overwritten by the first extraction; `comm` starts as the empty string. -/
def printProcessStats (env : Env) (pid : Int) : Output :=
  let statPath := "/proc/".toList ++ showInt pid ++ "/stat".toList
  match env.file statPath with
  | none => cerr ("Error: Could not open ".toList ++ statPath ++ "\n".toList)
  | some content =>
    let line := (getline (IStream.open content) []).2
    let iss := IStream.open line
    let (iss, pid) := extractInt iss pid
    let (iss, comm) := extractString iss []
    let (iss, state) := extractChar iss env.uninitChar
    let (iss, ppid) := extractInt iss (env.uninitLong 7)
    let (iss, pgrp) := extractInt iss (env.uninitLong 8)
    let (iss, session) := extractInt iss (env.uninitLong 9)
    let (iss, _tty_nr) := extractInt iss (env.uninitLong 10)
    let (iss, _tpgid) := extractInt iss (env.uninitLong 11)
    let (iss, _flags) := extractUInt iss (env.uninitLong 12)
    let (iss, minflt) := extractLong iss (env.uninitLong 13)
    let (iss, cminflt) := extractLong iss (env.uninitLong 14)
    let (iss, majflt) := extractLong iss (env.uninitLong 15)
    let (iss, cmajflt) := extractLong iss (env.uninitLong 16)
    let (iss, utime) := extractLong iss (env.uninitLong 17)
    let (_, stime) := extractLong iss (env.uninitLong 18)
    let ticksPerSecond := Double.ofLong env.clkTck
    cout ("Process Statistics for Process ".toList ++ showInt pid ++ ":".toList ++ "\n".toList)
      ++ cout ("Command: ".toList ++ comm ++ "\n".toList)
      ++ cout ("State: ".toList ++ [state] ++ "\n".toList)
      ++ cout ("Parent Process ID: ".toList ++ showInt ppid ++ "\n".toList)
      ++ cout ("Process Group ID: ".toList ++ showInt pgrp ++ "\n".toList)
      ++ cout ("Session ID: ".toList ++ showInt session ++ "\n".toList)
      ++ cout ("Minor Page Faults: ".toList ++ showInt minflt ++ "\n".toList)
      ++ cout ("Major Page Faults: ".toList ++ showInt majflt ++ "\n".toList)
      ++ cout ("Child Minor Page Faults: ".toList ++ showInt cminflt ++ "\n".toList)
      ++ cout ("Child Major Page Faults: ".toList ++ showInt cmajflt ++ "\n".toList)
      ++ cout ("User Mode Time: ".toList
            ++ showDouble (Double.div (Double.ofLong utime) ticksPerSecond)
            ++ " seconds\n".toList)
      ++ cout ("Kernel Mode Time: ".toList
            ++ showDouble (Double.div (Double.ofLong stime) ticksPerSecond)
            ++ " seconds\n".toList)
      ++ cout ("Time it took to get the data: ".toList ++ showInt env.elapsed
            ++ "us".toList ++ "\n".toList)

/-- Three-way lexicographic comparison of two texts: negative, zero or
positive. -/
def lexCompare : Str → Str → Int
  | [], [] => 0
  | [], _ :: _ => -1
  | _ :: _, [] => 1
  | a :: as, b :: bs => if a < b then -1 else if b < a then 1 else lexCompare as bs

/-- The call `line.compare(0, len, str)` of `std::string`: the first `len`
characters of `line` (fewer when `line` is shorter) compared with `str`. -/
def compare0 (line : Str) (len : Nat) (str : Str) : Int :=
  lexCompare (line.take len) str

/-- The condition of the `if` in the loop of `printProcessMemoryStatus`. -/
def statusLineSelected (line : Str) : Bool :=
  compare0 line 5 "Name:".toList == 0 || compare0 line 4 "Pid:".toList == 0 ||
  compare0 line 6 "State:".toList == 0 || compare0 line 5 "PPid:".toList == 0 ||
  compare0 line 2 "Vm".toList == 0 || compare0 line 3 "Rss".toList == 0

/-- The loop `while (getline(statusFile, line)) ...` of
`printProcessMemoryStatus`, run for at most `fuel` iterations. -/
def statusLoop : Nat → IStream → Str → Output
  | 0, _, _ => ⟨[], []⟩
  | fuel + 1, s, line =>
    let r := getline s line
    if r.1.fail then ⟨[], []⟩
    else
      (if statusLineSelected r.2 then cout (r.2 ++ "\n".toList) else ⟨[], []⟩)
        ++ statusLoop fuel r.1 r.2

/-- The function `printProcessMemoryStatus` of main.cpp. Every successful
`getline` on a stream that is not at its end consumes a character, and one
more call detects the end, so `content.length + 2` iterations exhaust any
file. -/
def printProcessMemoryStatus (env : Env) (pid : Int) : Output :=
  let statusPath := "/proc/".toList ++ showInt pid ++ "/status".toList
  match env.file statusPath with
  | none => cerr ("Error: Could not open ".toList ++ statusPath ++ "\n".toList)
  | some content => statusLoop (content.length + 2) (IStream.open content) []

/-- The outcome of `std::stoi`: a value, or one of its two exceptions. -/
inductive StoiResult where
  | value (v : Int)
  | invalidArgument
  | outOfRange
deriving DecidableEq

/-- The call `std::stoi(str)`: `strtol` in base 10 skips leading whitespace
and reads an optional sign and the digits that follow. No digit:
`std::invalid_argument`. A value outside the range of `int`:
`std::out_of_range`. -/
def stoi (str : Str) : StoiResult :=
  let (neg, r) := scanSign (str.dropWhile isSpace)
  let ds := r.takeWhile Char.isDigit
  if ds.isEmpty then StoiResult.invalidArgument
  else
    let v : Int := if neg then -(digitsVal ds : Int) else (digitsVal ds : Int)
    if v < INT_MIN ∨ INT_MAX < v then StoiResult.outOfRange else StoiResult.value v

/-- How a run of `main` ends: it returns an exit code, or an exception that
no handler catches reaches `std::terminate` and the process is aborted. -/
inductive Exit where
  | returned (code : Int)
  | terminated
deriving DecidableEq

/-- The function `main` of main.cpp on the argument vector `argv` (program
name first; `argc` is its length). The `try` block catches
`std::invalid_argument` only. -/
def main (env : Env) (argv : List Str) : Exit × Output :=
  if argv.length ≠ 2 then
    (Exit.returned 1, cerr ("Usage: ".toList ++ argv.headD [] ++ " <pid>".toList ++ "\n".toList))
  else
    match stoi (argv.getD 1 []) with
    | StoiResult.invalidArgument =>
      (Exit.returned 1, cerr ("Error: Invalid process ID".toList ++ "\n".toList))
    | StoiResult.outOfRange => (Exit.terminated, ⟨[], []⟩)
    | StoiResult.value pid =>
      (Exit.returned 0,
        printMemoryUsage env pid ++ cout "\n".toList ++ printProcessStats env pid
          ++ cout "\n".toList ++ printProcessMemoryStatus env pid)

/-! ## Vocabulary of the specification -/

/-- The whitespace-separated fields of a text, at most `fuel` of them. -/
def fieldsAux : Nat → Str → List Str
  | 0, _ => []
  | fuel + 1, s =>
    match s.dropWhile isSpace with
    | [] => []
    | c :: r =>
      (c :: r.takeWhile (fun x => !isSpace x))
        :: fieldsAux fuel (r.dropWhile (fun x => !isSpace x))

/-- The whitespace-separated fields of a text: its maximal runs of characters
that are not whitespace, in order. -/
def fields (s : Str) : List Str := fieldsAux (s.length + 1) s

/-- The integer a decimal numeral denotes: an optional sign followed by one or
more decimal digits and nothing else; `none` for any other text. -/
def numeralValue (t : Str) : Option Int :=
  let ds := (scanSign t).2
  if !ds.isEmpty && ds.all Char.isDigit then
    some (if (scanSign t).1 then -(digitsVal ds : Int) else (digitsVal ds : Int))
  else none

/-- The state of a string stream from which the fields `ts` remain to be
extracted: `failbit` is clear, `eofbit` is set only once the text is used up,
and the text left holds exactly the fields `ts`. -/
def Holds (s : IStream) (ts : List Str) : Prop :=
  s.fail = false ∧ (s.eof = true → s.buf = []) ∧ fields s.buf = ts

/-- One statistic line as the specification describes it: the label, the raw
page count, then the magnitude and unit `m` in parentheses. -/
def reportLine (label : Str) (count : Int) (m : Int × Str) : Str :=
  label ++ showInt count ++ " pages (".toList ++ showInt m.1 ++ " ".toList ++ m.2
    ++ ")\n".toList

/-- The text of a file made of the given lines, each ended by `\n`. -/
def unlines (ls : List Str) : Str := (ls.map (fun l => l ++ ['\n'])).flatten

/-- The prefixes the specification lists for the status reporter. -/
def statusPrefixes : List Str :=
  ["Name:".toList, "Pid:".toList, "State:".toList, "PPid:".toList, "Vm".toList,
    "Rss".toList]

/-- A line begins with one of the listed prefixes. -/
def beginsWithListed (line : Str) : Bool :=
  statusPrefixes.any (fun p => p.isPrefixOf line)

/-- The rational number a finite `double` denotes (0 for an infinity or a
NaN). -/
def Double.toRat : Double → ℚ
  | Double.finite neg m e => (if neg then -1 else 1) * (m : ℚ) * (2 : ℚ) ^ e
  | Double.inf _ => 0
  | Double.nan _ => 0

/-- An environment with the one file `path` of content `content`, page size
4096 and 100 clock ticks per second. -/
def oneFileEnv (path content : String) : Env where
  file := fun p => if p = path.toList then some content.toList else none
  pageSize := 4096
  clkTck := 100
  elapsed := 42
  uninitLong := fun _ => 0
  uninitChar := '?'

/-! ## Theorems -/

theorem boundary_bytes : boundary "bytes".toList = 1 := by decide
theorem boundary_KiB : boundary "KiB".toList = 1024 := by decide
theorem boundary_MiB : boundary "MiB".toList = 1024 ^ 2 := by decide
theorem boundary_GiB : boundary "GiB".toList = 1024 ^ 3 := by decide

/-- The four branches of `humanFriendlyBytes` on a non-negative count, with
the truncating division rewritten as floor division. -/
theorem humanFriendlyBytes_cases (B : Int) (hB : 0 ≤ B) :
    (B < 1024 ∧ humanFriendlyBytes B = (B, "bytes".toList)) ∨
    (1024 ≤ B ∧ B < 1024 ^ 2 ∧ humanFriendlyBytes B = (B / 1024, "KiB".toList)) ∨
    (1024 ^ 2 ≤ B ∧ B < 1024 ^ 3 ∧
      humanFriendlyBytes B = (B / 1024 ^ 2, "MiB".toList)) ∨
    (1024 ^ 3 ≤ B ∧ humanFriendlyBytes B = (B / 1024 ^ 3, "GiB".toList)) := by
  unfold humanFriendlyBytes
  by_cases h1 : B < 1024
  · left; simp [h1]
  · by_cases h2 : B < 1024 * 1024
    · right; left
      refine ⟨by omega, by omega, ?_⟩
      simp only [h1, h2, if_false, if_true]
      rw [Int.tdiv_eq_ediv hB (by norm_num)]
    · by_cases h3 : B < 1024 * 1024 * 1024
      · right; right; left
        refine ⟨by omega, by omega, ?_⟩
        simp only [h1, h2, h3, if_false, if_true]
        rw [Int.tdiv_eq_ediv hB (by norm_num)]; norm_num
      · right; right; right
        refine ⟨by omega, ?_⟩
        simp only [h1, h2, h3, if_false]
        rw [Int.tdiv_eq_ediv hB (by norm_num)]; norm_num

/-- C1: for every non-negative byte count `B`, the quantity `Q` and unit `U`
returned by `humanFriendlyBytes B` satisfy
`Q * boundary U ≤ B < Q * boundary U + boundary U`: `Q` is the truncated
quotient of `B` by the boundary of the unit returned. -/
theorem humanFriendlyBytes_quotient (B : Int) (hB : 0 ≤ B) :
    (humanFriendlyBytes B).1 * boundary (humanFriendlyBytes B).2 ≤ B ∧
    B < (humanFriendlyBytes B).1 * boundary (humanFriendlyBytes B).2
          + boundary (humanFriendlyBytes B).2 := by
  rcases humanFriendlyBytes_cases B hB with ⟨_, h⟩ | ⟨_, _, h⟩ | ⟨_, _, h⟩ | ⟨_, h⟩
  · rw [h]; simp only [boundary_bytes]; omega
  · rw [h]; simp only [boundary_KiB]; omega
  · rw [h]; simp only [boundary_MiB]
    have := Int.ediv_mul_le B (show (1024 ^ 2 : Int) ≠ 0 by norm_num)
    have := Int.lt_ediv_add_one_mul_self B (show (0 : Int) < 1024 ^ 2 by norm_num)
    constructor <;> nlinarith
  · rw [h]; simp only [boundary_GiB]
    have := Int.ediv_mul_le B (show (1024 ^ 3 : Int) ≠ 0 by norm_num)
    have := Int.lt_ediv_add_one_mul_self B (show (0 : Int) < 1024 ^ 3 by norm_num)
    constructor <;> nlinarith

/-- Witness of C1 at the specification's example, 1500 bytes reported as
1 KiB. -/
theorem humanFriendlyBytes_quotient_witness :
    (0 : Int) ≤ 1500 ∧
    (humanFriendlyBytes 1500).1 * boundary (humanFriendlyBytes 1500).2 ≤ 1500 ∧
    1500 < (humanFriendlyBytes 1500).1 * boundary (humanFriendlyBytes 1500).2
          + boundary (humanFriendlyBytes 1500).2 :=
  ⟨by decide, humanFriendlyBytes_quotient 1500 (by decide)⟩

/-- Counterexample to C2 as stated: at one tebibyte (`1024^4` bytes) the unit
returned is GiB, `B < 1024 * boundary U` fails and the quantity is 1024, not
below 1024. -/
theorem humanFriendlyBytes_unit_counterexample :
    humanFriendlyBytes (1024 ^ 4) = (1024, "GiB".toList) ∧
    ¬ ((1024 ^ 4 : Int) < 1024 * boundary (humanFriendlyBytes (1024 ^ 4)).2) ∧
    ¬ ((humanFriendlyBytes (1024 ^ 4)).1 < 1024) := by
  decide

/-- C2 (amended): for every byte count `0 ≤ B < 1024^4`, the unit `U` returned
by `humanFriendlyBytes B` is the smallest of bytes, KiB, MiB, GiB for which
`B < 1024 * boundary U`, and the reported quantity is below 1024; for every
`B ≥ 1024^4` the unit returned is GiB, the largest there is, and the reported
quantity is 1024 or more. -/
theorem humanFriendlyBytes_unit_smallest (B : Int) (h0 : 0 ≤ B) :
    (B < 1024 ^ 4 →
      (humanFriendlyBytes B).2 ∈ units ∧
      B < 1024 * boundary (humanFriendlyBytes B).2 ∧
      (∀ V ∈ units, B < 1024 * boundary V →
        boundary (humanFriendlyBytes B).2 ≤ boundary V) ∧
      (humanFriendlyBytes B).1 < 1024) ∧
    (1024 ^ 4 ≤ B →
      (humanFriendlyBytes B).2 = "GiB".toList ∧ 1024 ≤ (humanFriendlyBytes B).1) := by
  have hall : ∀ (P : Str → Prop), P "bytes".toList → P "KiB".toList → P "MiB".toList →
      P "GiB".toList → ∀ V ∈ units, P V := by
    intro P a b c d V hV
    simp only [units, List.mem_cons, List.mem_singleton, List.not_mem_nil, or_false] at hV
    rcases hV with rfl | rfl | rfl | rfl <;> assumption
  rcases humanFriendlyBytes_cases B h0 with ⟨hlt, h⟩ | ⟨hge, hlt, h⟩ | ⟨hge, hlt, h⟩ | ⟨hge, h⟩
  · rw [h]
    refine ⟨fun _ => ⟨by simp [units], by simp only [boundary_bytes]; omega, ?_, hlt⟩,
      fun h4 => by omega⟩
    refine hall _ ?_ ?_ ?_ ?_ <;>
      simp only [boundary_bytes, boundary_KiB, boundary_MiB, boundary_GiB] <;> intro _ <;>
      norm_num
  · rw [h]
    refine ⟨fun _ => ⟨by simp [units], by simp only [boundary_KiB]; omega, ?_, by omega⟩,
      fun h4 => by omega⟩
    refine hall _ ?_ ?_ ?_ ?_ <;>
      simp only [boundary_bytes, boundary_KiB, boundary_MiB, boundary_GiB] <;> intro _ <;>
      omega
  · rw [h]
    refine ⟨fun _ => ⟨by simp [units], by simp only [boundary_MiB]; omega, ?_, by omega⟩,
      fun h4 => by omega⟩
    refine hall _ ?_ ?_ ?_ ?_ <;>
      simp only [boundary_bytes, boundary_KiB, boundary_MiB, boundary_GiB] <;> intro _ <;>
      omega
  · rw [h]
    refine ⟨fun h1 => ⟨by simp [units], by simp only [boundary_GiB]; omega, ?_, by omega⟩,
      fun h4 => ⟨rfl, by show 1024 ≤ B / 1024 ^ 3; omega⟩⟩
    refine hall _ ?_ ?_ ?_ ?_ <;>
      simp only [boundary_bytes, boundary_KiB, boundary_MiB, boundary_GiB] <;> intro _ <;>
      omega

/-- Witness of C2 (amended): 1500 bytes, reported in KiB, and `1024^4` bytes,
reported as 1024 GiB. -/
theorem humanFriendlyBytes_unit_smallest_witness :
    ((humanFriendlyBytes 1500).2 ∈ units ∧
      (1500 : Int) < 1024 * boundary (humanFriendlyBytes 1500).2 ∧
      (∀ V ∈ units, (1500 : Int) < 1024 * boundary V →
        boundary (humanFriendlyBytes 1500).2 ≤ boundary V) ∧
      (humanFriendlyBytes 1500).1 < 1024) ∧
    ((humanFriendlyBytes (1024 ^ 4)).2 = "GiB".toList ∧
      1024 ≤ (humanFriendlyBytes (1024 ^ 4)).1) :=
  ⟨(humanFriendlyBytes_unit_smallest 1500 (by decide)).1 (by decide),
   (humanFriendlyBytes_unit_smallest (1024 ^ 4) (by decide)).2 (by decide)⟩

/-- C3: the values of `humanFriendlyBytes` at the unit boundaries. -/
theorem humanFriendlyBytes_boundaries :
    humanFriendlyBytes 0 = (0, "bytes".toList) ∧
    humanFriendlyBytes 1023 = (1023, "bytes".toList) ∧
    humanFriendlyBytes 1024 = (1, "KiB".toList) ∧
    humanFriendlyBytes (1024 * 1024 - 1) = (1023, "KiB".toList) ∧
    humanFriendlyBytes (1024 * 1024) = (1, "MiB".toList) := by
  decide

/-! ### Output streams -/

theorem Output.append_def (a b : Output) : a ++ b = ⟨a.out ++ b.out, a.err ++ b.err⟩ := rfl

theorem cout_append_cout (a b : Str) : cout a ++ cout b = cout (a ++ b) := by
  simp [Output.append_def, cout]

theorem Output.nil_append (a : Output) : (⟨[], []⟩ : Output) ++ a = a := by
  simp [Output.append_def]

/-! ### Lists -/

theorem length_dropWhile_le (p : Char → Bool) (l : Str) :
    (l.dropWhile p).length ≤ l.length := by
  induction l with
  | nil => simp
  | cons x xs ih =>
    by_cases hx : p x
    · rw [List.dropWhile_cons_of_pos hx]; simp; omega
    · rw [List.dropWhile_cons_of_neg hx]

/-! ### The status reporter -/

theorem lexCompare_eq_zero (a b : Str) : lexCompare a b = 0 ↔ a = b := by
  induction a generalizing b with
  | nil => cases b <;> simp [lexCompare]
  | cons x xs ih =>
    cases b with
    | nil => simp [lexCompare]
    | cons y ys =>
      simp only [lexCompare, List.cons.injEq]
      by_cases h1 : x < y
      · have : x ≠ y := fun h => by subst h; exact lt_irrefl _ h1
        simp [h1, this]
      · by_cases h2 : y < x
        · have : x ≠ y := fun h => by subst h; exact lt_irrefl _ h2
          simp [h1, h2, this]
        · have : x = y := le_antisymm (not_lt.mp h2) (not_lt.mp h1)
          simp [h1, h2, this, ih]

/-- Comparing the first `|p|` characters of a line with `p` gives 0 exactly
when the line begins with `p`. -/
theorem compare0_eq_zero (line p : Str) :
    (compare0 line p.length p == 0) = p.isPrefixOf line := by
  rw [Bool.eq_iff_iff]
  simp only [compare0, beq_iff_eq, lexCompare_eq_zero, List.isPrefixOf_iff_prefix,
    List.prefix_iff_eq_take]
  exact eq_comm

/-- The condition tested by the code is the prefix rule of the
specification. -/
theorem statusLineSelected_eq (line : Str) :
    statusLineSelected line = beginsWithListed line := by
  have h1 := compare0_eq_zero line "Name:".toList
  have h2 := compare0_eq_zero line "Pid:".toList
  have h3 := compare0_eq_zero line "State:".toList
  have h4 := compare0_eq_zero line "PPid:".toList
  have h5 := compare0_eq_zero line "Vm".toList
  have h6 := compare0_eq_zero line "Rss".toList
  have l1 : "Name:".toList.length = 5 := rfl
  have l2 : "Pid:".toList.length = 4 := rfl
  have l3 : "State:".toList.length = 6 := rfl
  have l4 : "PPid:".toList.length = 5 := rfl
  have l5 : "Vm".toList.length = 2 := rfl
  have l6 : "Rss".toList.length = 3 := rfl
  rw [l1] at h1; rw [l2] at h2; rw [l3] at h3; rw [l4] at h4; rw [l5] at h5; rw [l6] at h6
  simp only [statusLineSelected, beginsWithListed, statusPrefixes, List.any_cons,
    List.any_nil, Bool.or_false, h1, h2, h3, h4, h5, h6, Bool.or_assoc]

theorem unlines_cons (l : Str) (ls : List Str) :
    unlines (l :: ls) = l ++ '\n' :: unlines ls := by
  simp [unlines]

theorem length_le_length_unlines (ls : List Str) : ls.length ≤ (unlines ls).length := by
  induction ls with
  | nil => simp [unlines]
  | cons l ls ih => rw [unlines_cons]; simp; omega

theorem takeWhile_ne_newline (l rest : Str) (h : '\n' ∉ l) :
    (l ++ '\n' :: rest).takeWhile (fun c => c != '\n') = l := by
  induction l with
  | nil => simp
  | cons c cs ih =>
    have hc : c ≠ '\n' := fun e => h (by simp [e])
    have hcs : '\n' ∉ cs := fun e => h (by simp [e])
    simp [List.takeWhile_cons, hc, ih hcs]

theorem dropWhile_ne_newline (l rest : Str) (h : '\n' ∉ l) :
    (l ++ '\n' :: rest).dropWhile (fun c => c != '\n') = '\n' :: rest := by
  induction l with
  | nil => simp
  | cons c cs ih =>
    have hc : c ≠ '\n' := fun e => h (by simp [e])
    have hcs : '\n' ∉ cs := fun e => h (by simp [e])
    simp [List.dropWhile_cons, hc, ih hcs]

/-- On a good stream holding a line and its `\n`, `getline` returns the line
and leaves a good stream on what follows. -/
theorem getline_line (l rest old : Str) (h : '\n' ∉ l) :
    getline ⟨l ++ '\n' :: rest, false, false⟩ old = (⟨rest, false, false⟩, l) := by
  simp [getline, takeWhile_ne_newline l rest h, dropWhile_ne_newline l rest h]

/-- The loop prints the selected lines of a file made of whole lines, given
more iterations than there are lines. -/
theorem statusLoop_unlines (lines : List Str) (hnl : ∀ l ∈ lines, '\n' ∉ l) :
    ∀ (fuel : Nat) (old : Str), lines.length < fuel →
      statusLoop fuel ⟨unlines lines, false, false⟩ old
        = cout (unlines (lines.filter statusLineSelected)) := by
  induction lines with
  | nil =>
    intro fuel old hf
    cases fuel with
    | zero => omega
    | succ f => simp [statusLoop, getline, unlines, cout]
  | cons l ls ih =>
    intro fuel old hf
    cases fuel with
    | zero => omega
    | succ f =>
      have hl : '\n' ∉ l := hnl l (by simp)
      have hls : ∀ x ∈ ls, '\n' ∉ x := fun x hx => hnl x (by simp [hx])
      have hf2 : ls.length < f := by simp at hf; omega
      rw [statusLoop, unlines_cons, getline_line l _ old hl]
      simp only [Bool.false_eq_true, if_false]
      rw [ih hls f l hf2]
      by_cases hs : statusLineSelected l
      · simp [hs, List.filter_cons, unlines_cons, cout_append_cout]
      · simp [hs, List.filter_cons, Output.nil_append]

/-- The loop of the status reporter ends by itself: once the number of
iterations allowed exceeds the length of the text left by 1, allowing more
changes nothing. In particular the `content.length + 2` iterations of
`printProcessMemoryStatus` run the loop to its end on every file. -/
theorem statusLoop_fuel : ∀ (fuel1 fuel2 : Nat) (s : IStream) (line : Str),
    (if s.eof || s.fail then 0 else s.buf.length + 1) < fuel1 →
    (if s.eof || s.fail then 0 else s.buf.length + 1) < fuel2 →
    statusLoop fuel1 s line = statusLoop fuel2 s line := by
  intro fuel1
  induction fuel1 with
  | zero => intro fuel2 s line h; omega
  | succ f1 ih =>
    intro fuel2 s line h1 h2
    cases fuel2 with
    | zero => omega
    | succ f2 =>
      simp only [statusLoop]
      by_cases hbad : (s.eof || s.fail) = true
      · simp [getline, hbad]
      · have hbad' : (s.eof || s.fail) = false := by simpa using hbad
        simp only [hbad', Bool.false_eq_true, if_false] at h1 h2
        have hlen := length_dropWhile_le (fun c => c != '\n') s.buf
        cases hd : s.buf.dropWhile (fun c => c != '\n') with
        | nil =>
          simp only [getline, hbad', Bool.false_eq_true, if_false, hd]
          split
          · rfl
          · rw [ih f2 _ _ (by simp; omega) (by simp; omega)]
        | cons c rest =>
          rw [hd] at hlen
          simp only [List.length_cons] at hlen
          simp only [getline, hbad', Bool.false_eq_true, if_false, hd]
          rw [ih f2 _ _ (by simp; omega) (by simp; omega)]

/-- C4: for every status record, given as its sequence of lines,
`printProcessMemoryStatus` prints exactly the lines that begin with one of the
prefixes "Name:", "Pid:", "State:", "PPid:", "Vm" or "Rss", each verbatim and
in source order, and nothing else (nothing on standard error either). -/
theorem printProcessMemoryStatus_filters (env : Env) (pid : Int) (lines : List Str)
    (hnl : ∀ l ∈ lines, '\n' ∉ l)
    (hfile : env.file ("/proc/".toList ++ showInt pid ++ "/status".toList)
      = some (unlines lines)) :
    printProcessMemoryStatus env pid = cout (unlines (lines.filter beginsWithListed)) := by
  have hsel : (fun l => statusLineSelected l) = fun l => beginsWithListed l :=
    funext statusLineSelected_eq
  have hlen := length_le_length_unlines lines
  simp only [printProcessMemoryStatus, hfile, IStream.open]
  rw [statusLoop_unlines lines hnl _ [] (by omega)]
  exact congrArg (fun f => cout (unlines (lines.filter f))) hsel

set_option maxRecDepth 100000 in
/-- Witness of C4, the record of the specification: of the lines
"Name: test", "Foo: bar", "VmRSS: 100 kB", "State: S" the first, third and
fourth are printed. -/
theorem printProcessMemoryStatus_filters_witness :
    printProcessMemoryStatus
        (oneFileEnv "/proc/1/status" "Name: test\nFoo: bar\nVmRSS: 100 kB\nState: S\n") 1
      = cout (unlines ["Name: test".toList, "VmRSS: 100 kB".toList, "State: S".toList]) :=
  (printProcessMemoryStatus_filters
      (oneFileEnv "/proc/1/status" "Name: test\nFoo: bar\nVmRSS: 100 kB\nState: S\n") 1
      ["Name: test".toList, "Foo: bar".toList, "VmRSS: 100 kB".toList, "State: S".toList]
      (by decide) (by decide)).trans (by decide)

/-! ### Fields of a line and the extractions that read them -/

theorem dropWhile_head_false {p : Char → Bool} :
    ∀ {l : Str} {c : Char} {r : Str}, l.dropWhile p = c :: r → p c = false := by
  intro l
  induction l with
  | nil => intro c r h; simp at h
  | cons x xs ih =>
    intro c r h
    by_cases hx : p x
    · rw [List.dropWhile_cons_of_pos hx] at h; exact ih h
    · rw [List.dropWhile_cons_of_neg hx] at h
      simp only [List.cons.injEq] at h
      rw [← h.1]; simpa using hx

/-- Reading from a run of accepted characters followed by a character that
is not accepted (or by nothing) takes exactly the run. -/
theorem takeWhile_run {p : Char → Bool} (ds rest : Str) (hds : ∀ c ∈ ds, p c = true)
    (hrest : ∀ c r, rest = c :: r → p c = false) :
    (ds ++ rest).takeWhile p = ds ∧ (ds ++ rest).dropWhile p = rest := by
  have h0 : rest.takeWhile p = [] ∧ rest.dropWhile p = rest := by
    cases rest with
    | nil => simp
    | cons c r =>
      have := hrest c r rfl
      simp [List.takeWhile_cons, List.dropWhile_cons, this]
  rw [List.takeWhile_append_of_pos hds, List.dropWhile_append_of_pos hds, h0.1, h0.2]
  simp

theorem fieldsAux_fuel : ∀ (n m : Nat) (s : Str), s.length < n → s.length < m →
    fieldsAux n s = fieldsAux m s := by
  intro n
  induction n with
  | zero => intro m s h; omega
  | succ n ih =>
    intro m s hn hm
    cases m with
    | zero => omega
    | succ m =>
      simp only [fieldsAux]
      have hlen := length_dropWhile_le isSpace s
      cases hd : s.dropWhile isSpace with
      | nil => rfl
      | cons c r =>
        rw [hd] at hlen
        have h2 := length_dropWhile_le (fun x => !isSpace x) r
        simp only [List.length_cons] at hlen
        simp only
        rw [ih m _ (by omega) (by omega)]

theorem fields_nil : fields [] = [] := by
  simp [fields, fieldsAux]

/-- The first field of a text: after the leading whitespace comes the field,
a non-empty run without whitespace, and what follows it is empty or starts
with whitespace and holds the remaining fields. -/
theorem fields_cons {s t : Str} {ts : List Str} (h : fields s = t :: ts) :
    ∃ c w rest, t = c :: w ∧ s.dropWhile isSpace = t ++ rest ∧
      (∀ x ∈ t, isSpace x = false) ∧
      (∀ x r, rest = x :: r → isSpace x = true) ∧ fields rest = ts := by
  unfold fields at h
  simp only [fieldsAux] at h
  have hlen := length_dropWhile_le isSpace s
  cases hd : s.dropWhile isSpace with
  | nil => rw [hd] at h; simp at h
  | cons c r =>
    rw [hd] at h hlen
    simp only [List.cons.injEq] at h
    obtain ⟨ht, hts⟩ := h
    have hc : isSpace c = false := dropWhile_head_false hd
    have h2 := length_dropWhile_le (fun x => !isSpace x) r
    simp only [List.length_cons] at hlen
    refine ⟨c, r.takeWhile (fun x => !isSpace x), r.dropWhile (fun x => !isSpace x),
      ht.symm, ?_, ?_, ?_, ?_⟩
    · rw [← ht]; simp
    · intro x hx
      rw [← ht] at hx
      rcases List.mem_cons.mp hx with rfl | hx
      · exact hc
      · have := (List.mem_takeWhile_imp hx)
        simpa using this
    · intro x r' hr
      have := dropWhile_head_false hr
      simpa using this
    · rw [← hts]
      unfold fields
      exact fieldsAux_fuel _ _ _ (by omega) (by omega)

theorem Holds.eof_false {s : IStream} {t : Str} {ts : List Str} (h : Holds s (t :: ts)) :
    s.eof = false := by
  obtain ⟨_, he, hf⟩ := h
  cases hE : s.eof with
  | false => rfl
  | true => rw [he hE, fields_nil] at hf; simp at hf

theorem Holds.open (line : Str) : Holds (IStream.open line) (fields line) :=
  ⟨rfl, fun h => by simp [IStream.open] at h, rfl⟩

/-- The sentry on a stream that still holds a field stops at that field. -/
theorem sentry_field {s : IStream} {t : Str} {ts : List Str} (h : Holds s (t :: ts)) :
    ∃ rest, sentry s = (⟨t ++ rest, false, false⟩, true) ∧ t ≠ [] ∧
      (∀ x ∈ t, isSpace x = false) ∧
      (∀ x r, rest = x :: r → isSpace x = true) ∧ fields rest = ts := by
  have he := h.eof_false
  obtain ⟨hf, _, hfl⟩ := h
  obtain ⟨c, w, rest, ht, hd, hns, hsp, hrest⟩ := fields_cons hfl
  refine ⟨rest, ?_, by simp [ht], hns, hsp, hrest⟩
  simp only [sentry, he, hf, Bool.or_self, Bool.false_eq_true, if_false, hd]
  rw [ht]; rfl

theorem holds_rest (rest : Str) (ts : List Str) (h : fields rest = ts) :
    Holds ⟨rest, rest.isEmpty, false⟩ ts :=
  ⟨rfl, fun he => by simpa using he, h⟩

theorem isDigit_of_isSpace {x : Char} (h : isSpace x = true) : x.isDigit = false := by
  simp only [isSpace, Bool.or_eq_true, decide_eq_true_eq] at h
  rcases h with ((((rfl | rfl) | rfl) | rfl) | rfl) | rfl <;> decide

/-- A numeral is an optional sign and a non-empty run of digits, and denotes
the value of the digits with that sign. -/
theorem numeralValue_some {t : Str} {v : Int} (h : numeralValue t = some v) :
    (scanSign t).2 ≠ [] ∧ (∀ c ∈ (scanSign t).2, c.isDigit = true) ∧
      v = if (scanSign t).1 then -(digitsVal (scanSign t).2 : Int)
          else (digitsVal (scanSign t).2 : Int) := by
  unfold numeralValue at h
  simp only at h
  split at h
  · rename_i hc
    simp only [Bool.and_eq_true, Bool.not_eq_true', List.isEmpty_eq_false,
      List.all_eq_true] at hc
    simp only [Option.some.injEq] at h
    refine ⟨?_, hc.2, h.symm⟩
    intro hnil
    rw [hnil] at hc
    simp at hc
  · simp at h

theorem scanSign_append {t : Str} (rest : Str) (ht : (scanSign t).2 ≠ []) :
    scanSign (t ++ rest) = ((scanSign t).1, (scanSign t).2 ++ rest) := by
  cases t with
  | nil => simp [scanSign] at ht
  | cons c r =>
    simp only [scanSign, List.cons_append]
    by_cases h1 : c = '-'
    · simp [h1]
    · by_cases h2 : c = '+'
      · simp [h2]
      · simp [h1, h2]

/-- The digits read by a numeric conversion from a numeral followed by
whitespace or by the end of the text are those of the numeral. -/
theorem scan_numeral {t rest : Str} {v : Int} (hv : numeralValue t = some v)
    (hsp : ∀ x r, rest = x :: r → isSpace x = true) :
    (scanSign (t ++ rest)).1 = (scanSign t).1 ∧
    (scanSign (t ++ rest)).2.takeWhile Char.isDigit = (scanSign t).2 ∧
    (scanSign (t ++ rest)).2.dropWhile Char.isDigit = rest := by
  obtain ⟨hne, hdig, _⟩ := numeralValue_some hv
  rw [scanSign_append rest hne]
  have := takeWhile_run (p := Char.isDigit) (scanSign t).2 rest hdig
    (fun x r hx => isDigit_of_isSpace (hsp x r hx))
  exact ⟨rfl, this.1, this.2⟩

theorem numGetLong_numeral {t rest : Str} {v : Int} (e f : Bool)
    (hv : numeralValue t = some v) (hsp : ∀ x r, rest = x :: r → isSpace x = true)
    (hlo : LONG_MIN ≤ v) (hhi : v ≤ LONG_MAX) :
    numGetLong ⟨t ++ rest, e, f⟩ = (⟨rest, rest.isEmpty, false⟩, v) := by
  obtain ⟨h1, h2, h3⟩ := scan_numeral hv hsp
  obtain ⟨hne, _, hval⟩ := numeralValue_some hv
  have hne2 : (scanSign t).2.isEmpty = false := by simpa using hne
  unfold numGetLong
  simp only [h1, h2, h3, hne2, Bool.false_eq_true, if_false, ← hval]
  rw [if_neg (by omega), if_neg (by omega)]

theorem numGetUInt_numeral {t rest : Str} {v : Int} (e f : Bool)
    (hv : numeralValue t = some v) (hsp : ∀ x r, rest = x :: r → isSpace x = true)
    (hlo : 0 ≤ v) (hhi : v ≤ UINT_MAX) :
    numGetUInt ⟨t ++ rest, e, f⟩ = (⟨rest, rest.isEmpty, false⟩, v) := by
  obtain ⟨h1, h2, h3⟩ := scan_numeral hv hsp
  obtain ⟨hne, _, hval⟩ := numeralValue_some hv
  have hne2 : (scanSign t).2.isEmpty = false := by simpa using hne
  unfold numGetUInt
  simp only [h1, h2, h3, hne2, Bool.false_eq_true, if_false]
  have hU : UINT_MAX = 2 ^ 32 - 1 := rfl
  cases hs : (scanSign t).1 with
  | false =>
    rw [hs] at hval
    simp only [Bool.false_eq_true, if_false] at hval ⊢
    rw [← hval, if_neg (by omega)]
  | true =>
    rw [hs] at hval
    simp only [if_true] at hval ⊢
    have hm : (digitsVal (scanSign t).2 : Int) = 0 := by omega
    rw [hm] at hval ⊢
    rw [if_neg (by rw [hU]; norm_num)]
    rw [hval]; norm_num

/-- Reading a `long` from a stream whose next field is a numeral in range
yields its value and leaves the remaining fields. -/
theorem extractLong_field {s : IStream} {t : Str} {ts : List Str} {v : Int} (old : Int)
    (h : Holds s (t :: ts)) (hv : numeralValue t = some v)
    (hlo : LONG_MIN ≤ v) (hhi : v ≤ LONG_MAX) :
    ∃ s1, extractLong s old = (s1, v) ∧ Holds s1 ts := by
  obtain ⟨rest, hs, _, _, hsp, hrest⟩ := sentry_field h
  refine ⟨⟨rest, rest.isEmpty, false⟩, ?_, holds_rest rest ts hrest⟩
  simp only [extractLong, hs]
  exact numGetLong_numeral false false hv hsp hlo hhi

/-- Reading an `int` from a stream whose next field is a numeral in range
yields its value and leaves the remaining fields. -/
theorem extractInt_field {s : IStream} {t : Str} {ts : List Str} {v : Int} (old : Int)
    (h : Holds s (t :: ts)) (hv : numeralValue t = some v)
    (hlo : INT_MIN ≤ v) (hhi : v ≤ INT_MAX) :
    ∃ s1, extractInt s old = (s1, v) ∧ Holds s1 ts := by
  obtain ⟨rest, hs, _, _, hsp, hrest⟩ := sentry_field h
  refine ⟨⟨rest, rest.isEmpty, false⟩, ?_, holds_rest rest ts hrest⟩
  have h1 : INT_MIN = -(2 ^ 31) := rfl
  have h2 : INT_MAX = 2 ^ 31 - 1 := rfl
  have h3 : LONG_MIN = -(2 ^ 63) := rfl
  have h4 : LONG_MAX = 2 ^ 63 - 1 := rfl
  simp only [extractInt, hs]
  rw [numGetLong_numeral false false hv hsp (by omega) (by omega)]
  simp only
  rw [if_neg (by omega), if_neg (by omega)]

/-- Reading an `unsigned int` from a stream whose next field is a numeral in
range yields its value and leaves the remaining fields. -/
theorem extractUInt_field {s : IStream} {t : Str} {ts : List Str} {v : Int} (old : Int)
    (h : Holds s (t :: ts)) (hv : numeralValue t = some v)
    (hlo : 0 ≤ v) (hhi : v ≤ UINT_MAX) :
    ∃ s1, extractUInt s old = (s1, v) ∧ Holds s1 ts := by
  obtain ⟨rest, hs, _, _, hsp, hrest⟩ := sentry_field h
  refine ⟨⟨rest, rest.isEmpty, false⟩, ?_, holds_rest rest ts hrest⟩
  simp only [extractUInt, hs]
  exact numGetUInt_numeral false false hv hsp hlo hhi

/-- Reading a `std::string` yields the next field whole. -/
theorem extractString_field {s : IStream} {t : Str} {ts : List Str} (old : Str)
    (h : Holds s (t :: ts)) :
    ∃ s1, extractString s old = (s1, t) ∧ Holds s1 ts := by
  obtain ⟨rest, hs, hne, hns, hsp, hrest⟩ := sentry_field h
  refine ⟨⟨rest, rest.isEmpty, false⟩, ?_, holds_rest rest ts hrest⟩
  have := takeWhile_run (p := fun c => !isSpace c) t rest (by simpa using hns)
    (fun x r hx => by simp [hsp x r hx])
  have hne2 : t.isEmpty = false := by simpa using hne
  simp only [extractString, hs, this.1, this.2, hne2]

/-- Reading a `char` yields a one-character field. -/
theorem extractChar_field {s : IStream} {c : Char} {ts : List Str} (old : Char)
    (h : Holds s ([c] :: ts)) :
    ∃ s1, extractChar s old = (s1, c) ∧ Holds s1 ts := by
  obtain ⟨rest, hs, _, _, _, hrest⟩ := sentry_field h
  refine ⟨⟨rest, false, false⟩, ?_, ⟨rfl, fun he => by simp at he, hrest⟩⟩
  simp only [extractChar, hs, List.singleton_append]

/-- The first `getline` on a file returns its first line. -/
theorem getline_open (line more : Str) (hnl : '\n' ∉ line) :
    (getline (IStream.open (line ++ '\n' :: more)) []).2 = line := by
  rw [IStream.open, getline_line line more [] hnl]

/-! ### The memory usage reporter -/

theorem wrapLong_of_fits {x : Int} (hlo : LONG_MIN ≤ x) (hhi : x ≤ LONG_MAX) :
    wrapLong x = x := by
  have h1 : LONG_MIN = -(2 ^ 63) := rfl
  have h2 : LONG_MAX = 2 ^ 63 - 1 := rfl
  unfold wrapLong
  rw [Int.emod_eq_of_lt (by omega) (by omega)]
  omega

/-- Reading a `long` when the next field of the stream denotes `v`: the
value read is `v` and the fields after it remain. -/
theorem extractLong_value {s : IStream} {v : Int} {vs : List (Option Int)}
    {extra : List Str} (old : Int)
    (h : ∃ ts, Holds s (ts ++ extra) ∧ ts.map numeralValue = some v :: vs)
    (hlo : LONG_MIN ≤ v) (hhi : v ≤ LONG_MAX) :
    ∃ s1, extractLong s old = (s1, v) ∧
      ∃ ts, Holds s1 (ts ++ extra) ∧ ts.map numeralValue = vs := by
  obtain ⟨ts, hH, hmap⟩ := h
  cases ts with
  | nil => simp at hmap
  | cons t ts =>
    simp only [List.map_cons, List.cons.injEq] at hmap
    obtain ⟨s1, he, hH1⟩ := extractLong_field old hH hmap.1 hlo hhi
    exact ⟨s1, he, ts, hH1, hmap.2⟩

/-- Reading an `int` when the next field of the stream denotes `v`. -/
theorem extractInt_value {s : IStream} {v : Int} {vs : List (Option Int)}
    {extra : List Str} (old : Int)
    (h : ∃ ts, Holds s (ts ++ extra) ∧ ts.map numeralValue = some v :: vs)
    (hlo : INT_MIN ≤ v) (hhi : v ≤ INT_MAX) :
    ∃ s1, extractInt s old = (s1, v) ∧
      ∃ ts, Holds s1 (ts ++ extra) ∧ ts.map numeralValue = vs := by
  obtain ⟨ts, hH, hmap⟩ := h
  cases ts with
  | nil => simp at hmap
  | cons t ts =>
    simp only [List.map_cons, List.cons.injEq] at hmap
    obtain ⟨s1, he, hH1⟩ := extractInt_field old hH hmap.1 hlo hhi
    exact ⟨s1, he, ts, hH1, hmap.2⟩

/-- Reading an `unsigned int` when the next field of the stream denotes `v`. -/
theorem extractUInt_value {s : IStream} {v : Int} {vs : List (Option Int)}
    {extra : List Str} (old : Int)
    (h : ∃ ts, Holds s (ts ++ extra) ∧ ts.map numeralValue = some v :: vs)
    (hlo : 0 ≤ v) (hhi : v ≤ UINT_MAX) :
    ∃ s1, extractUInt s old = (s1, v) ∧
      ∃ ts, Holds s1 (ts ++ extra) ∧ ts.map numeralValue = vs := by
  obtain ⟨ts, hH, hmap⟩ := h
  cases ts with
  | nil => simp at hmap
  | cons t ts =>
    simp only [List.map_cons, List.cons.injEq] at hmap
    obtain ⟨s1, he, hH1⟩ := extractUInt_field old hH hmap.1 hlo hhi
    exact ⟨s1, he, ts, hH1, hmap.2⟩

/-- The output of `printMemoryUsage` on a record of seven numerals in the
range of `long`, in terms of the code's own line format. -/
theorem printMemoryUsage_record (env : Env) (pid : Int) (line more : Str)
    (size resident shared text lib data dirty : Int)
    (hfile : env.file ("/proc/".toList ++ showInt pid ++ "/statm".toList)
      = some (line ++ '\n' :: more))
    (hnl : '\n' ∉ line)
    (hrec : (fields line).map numeralValue
      = [some size, some resident, some shared, some text, some lib, some data, some dirty])
    (hrange : ∀ v ∈ [size, resident, shared, text, lib, data, dirty],
      LONG_MIN ≤ v ∧ v ≤ LONG_MAX) :
    printMemoryUsage env pid
      = cout ("Memory Usage Statistics for Process ".toList ++ showInt pid ++ ":\n".toList
          ++ usageLine "Virtual:      ".toList size env.pageSize
          ++ usageLine "Resident:     ".toList resident env.pageSize
          ++ usageLine "Shared:       ".toList shared env.pageSize
          ++ usageLine "Text (Code):  ".toList text env.pageSize
          ++ usageLine "Data + Stack: ".toList data env.pageSize) := by
  have r1 := hrange size (by simp)
  have r2 := hrange resident (by simp)
  have r3 := hrange shared (by simp)
  have r4 := hrange text (by simp)
  have r5 := hrange lib (by simp)
  have r6 := hrange data (by simp)
  have r7 := hrange dirty (by simp)
  have h0 : ∃ ts, Holds (IStream.open line) (ts ++ []) ∧ ts.map numeralValue
      = [some size, some resident, some shared, some text, some lib, some data, some dirty] :=
    ⟨fields line, by simpa using Holds.open line, hrec⟩
  obtain ⟨s1, e1, h1⟩ := extractLong_value (env.uninitLong 0) h0 r1.1 r1.2
  obtain ⟨s2, e2, h2⟩ := extractLong_value (env.uninitLong 1) h1 r2.1 r2.2
  obtain ⟨s3, e3, h3⟩ := extractLong_value (env.uninitLong 2) h2 r3.1 r3.2
  obtain ⟨s4, e4, h4⟩ := extractLong_value (env.uninitLong 3) h3 r4.1 r4.2
  obtain ⟨s5, e5, h5⟩ := extractLong_value (env.uninitLong 4) h4 r5.1 r5.2
  obtain ⟨s6, e6, h6⟩ := extractLong_value (env.uninitLong 5) h5 r6.1 r6.2
  obtain ⟨s7, e7, _⟩ := extractLong_value (env.uninitLong 6) h6 r7.1 r7.2
  simp only [printMemoryUsage, hfile, getline_open line more hnl, e1, e2, e3, e4, e5, e6, e7]
  simp only [cout_append_cout, List.append_assoc]

theorem usageLine_of_fits (label : Str) (count pageSize : Int)
    (hlo : LONG_MIN ≤ count * pageSize) (hhi : count * pageSize ≤ LONG_MAX) :
    usageLine label count pageSize
      = reportLine label count (humanFriendlyBytes (count * pageSize)) := by
  simp only [usageLine, reportLine, wrapLong_of_fits hlo hhi]

/-- C5: for every page-count record line of seven whitespace-separated
non-negative integers (size, resident, shared, text, lib, data, dirty, each
within the range of the `long` it is read into) and every page size `p` whose
products with the reported fields fit in a signed 64-bit integer,
`printMemoryUsage` prints, after its header and in the order Virtual,
Resident, Shared, Text (Code), Data + Stack, the raw page count of size,
resident, shared, text and data followed by `humanFriendlyBytes (count * p)`,
and nothing on standard error. -/
theorem printMemoryUsage_reports (env : Env) (pid : Int) (line more : Str)
    (size resident shared text lib data dirty : Int)
    (hfile : env.file ("/proc/".toList ++ showInt pid ++ "/statm".toList)
      = some (line ++ '\n' :: more))
    (hnl : '\n' ∉ line)
    (hrec : (fields line).map numeralValue
      = [some size, some resident, some shared, some text, some lib, some data, some dirty])
    (hrange : ∀ v ∈ [size, resident, shared, text, lib, data, dirty],
      0 ≤ v ∧ v ≤ LONG_MAX)
    (hfit : ∀ v ∈ [size, resident, shared, text, data],
      LONG_MIN ≤ v * env.pageSize ∧ v * env.pageSize ≤ LONG_MAX) :
    printMemoryUsage env pid
      = cout ("Memory Usage Statistics for Process ".toList ++ showInt pid ++ ":\n".toList
          ++ reportLine "Virtual:      ".toList size
              (humanFriendlyBytes (size * env.pageSize))
          ++ reportLine "Resident:     ".toList resident
              (humanFriendlyBytes (resident * env.pageSize))
          ++ reportLine "Shared:       ".toList shared
              (humanFriendlyBytes (shared * env.pageSize))
          ++ reportLine "Text (Code):  ".toList text
              (humanFriendlyBytes (text * env.pageSize))
          ++ reportLine "Data + Stack: ".toList data
              (humanFriendlyBytes (data * env.pageSize))) := by
  have hL : LONG_MIN ≤ 0 := by decide
  rw [printMemoryUsage_record env pid line more size resident shared text lib data dirty
    hfile hnl hrec (fun v hv => ⟨le_trans hL (hrange v hv).1, (hrange v hv).2⟩)]
  have f1 := hfit size (by simp)
  have f2 := hfit resident (by simp)
  have f3 := hfit shared (by simp)
  have f4 := hfit text (by simp)
  have f5 := hfit data (by simp)
  rw [usageLine_of_fits _ _ _ f1.1 f1.2, usageLine_of_fits _ _ _ f2.1 f2.2,
    usageLine_of_fits _ _ _ f3.1 f3.2, usageLine_of_fits _ _ _ f4.1 f4.2,
    usageLine_of_fits _ _ _ f5.1 f5.2]

set_option maxRecDepth 100000 in
/-- Witness of C5, the record of the specification: "100 50 10 5 2 20 0" with
a page size of 4096 is reported as 100 pages / 400 KiB, 50 pages / 200 KiB,
10 pages / 40 KiB, 5 pages / 20 KiB and 20 pages / 80 KiB. -/
theorem printMemoryUsage_reports_witness :
    printMemoryUsage (oneFileEnv "/proc/1/statm" "100 50 10 5 2 20 0\n") 1
      = cout ("Memory Usage Statistics for Process 1:\n"
          ++ "Virtual:      100 pages (400 KiB)\n"
          ++ "Resident:     50 pages (200 KiB)\n"
          ++ "Shared:       10 pages (40 KiB)\n"
          ++ "Text (Code):  5 pages (20 KiB)\n"
          ++ "Data + Stack: 20 pages (80 KiB)\n").toList :=
  (printMemoryUsage_reports (oneFileEnv "/proc/1/statm" "100 50 10 5 2 20 0\n") 1
      "100 50 10 5 2 20 0".toList [] 100 50 10 5 2 20 0
      (by decide) (by decide) (by decide) (by decide) (by decide)).trans (by decide)

/-- C9: the output of `printMemoryUsage` does not depend on the library and
dirty fields. For two page-count records of seven integers (each within the
range of the `long` it is read into) that agree on the size, resident, shared,
text and data fields and may differ in fields 5 and 7, read for the same pid
and with the same page size, `printMemoryUsage` prints the same text. -/
theorem printMemoryUsage_ignores_lib_dirty (env1 env2 : Env) (pid : Int)
    (line1 more1 line2 more2 : Str)
    (size resident shared text data lib1 dirty1 lib2 dirty2 : Int)
    (hpage : env1.pageSize = env2.pageSize)
    (hfile1 : env1.file ("/proc/".toList ++ showInt pid ++ "/statm".toList)
      = some (line1 ++ '\n' :: more1))
    (hfile2 : env2.file ("/proc/".toList ++ showInt pid ++ "/statm".toList)
      = some (line2 ++ '\n' :: more2))
    (hnl1 : '\n' ∉ line1) (hnl2 : '\n' ∉ line2)
    (hrec1 : (fields line1).map numeralValue
      = [some size, some resident, some shared, some text, some lib1, some data, some dirty1])
    (hrec2 : (fields line2).map numeralValue
      = [some size, some resident, some shared, some text, some lib2, some data, some dirty2])
    (hrange : ∀ v ∈ [size, resident, shared, text, data, lib1, dirty1, lib2, dirty2],
      LONG_MIN ≤ v ∧ v ≤ LONG_MAX) :
    printMemoryUsage env1 pid = printMemoryUsage env2 pid := by
  rw [printMemoryUsage_record env1 pid line1 more1 size resident shared text lib1 data dirty1
      hfile1 hnl1 hrec1 (fun v hv => hrange v (by
        simp only [List.mem_cons, List.mem_singleton, List.not_mem_nil, or_false] at hv ⊢
        tauto)),
    printMemoryUsage_record env2 pid line2 more2 size resident shared text lib2 data dirty2
      hfile2 hnl2 hrec2 (fun v hv => hrange v (by
        simp only [List.mem_cons, List.mem_singleton, List.not_mem_nil, or_false] at hv ⊢
        tauto)),
    hpage]

set_option maxRecDepth 100000 in
/-- Witness of C9: the records "100 50 10 5 2 20 0" and
"100 50 10 5 77 20 123" give the same output. -/
theorem printMemoryUsage_ignores_lib_dirty_witness :
    printMemoryUsage (oneFileEnv "/proc/1/statm" "100 50 10 5 2 20 0\n") 1
      = printMemoryUsage (oneFileEnv "/proc/1/statm" "100 50 10 5 77 20 123\n") 1 :=
  printMemoryUsage_ignores_lib_dirty
    (oneFileEnv "/proc/1/statm" "100 50 10 5 2 20 0\n")
    (oneFileEnv "/proc/1/statm" "100 50 10 5 77 20 123\n") 1
    "100 50 10 5 2 20 0".toList [] "100 50 10 5 77 20 123".toList []
    100 50 10 5 20 2 0 77 123
    rfl (by decide) (by decide) (by decide) (by decide) (by decide) (by decide) (by decide)

/-! ### `double` division -/

theorem bitLenAux_zero (fuel : Nat) : bitLenAux fuel 0 = 0 := by
  cases fuel <;> simp [bitLenAux]

/-- For `n > 0`, `bitLen n` is the position of the leading binary digit:
`2^(bitLen n - 1) ≤ n < 2^(bitLen n)`. -/
theorem bitLenAux_spec : ∀ (fuel n : Nat), n ≤ fuel → 0 < n →
    ∃ k, bitLenAux fuel n = k + 1 ∧ 2 ^ k ≤ n ∧ n < 2 ^ (k + 1) := by
  intro fuel
  induction fuel with
  | zero => intro n h1 h2; omega
  | succ f ih =>
    intro n h1 h2
    have hn : n ≠ 0 := by omega
    simp only [bitLenAux, hn, if_false]
    by_cases h : n / 2 = 0
    · refine ⟨0, by rw [h, bitLenAux_zero], ?_, ?_⟩ <;> omega
    · obtain ⟨k, hk, hlo, hhi⟩ := ih (n / 2) (by omega) (by omega)
      refine ⟨k + 1, by rw [hk], ?_, ?_⟩
      · rw [pow_succ]; omega
      · rw [pow_succ]; omega

theorem bitLen_spec {n : Nat} (h : 0 < n) :
    ∃ k, bitLen n = k + 1 ∧ 2 ^ k ≤ n ∧ n < 2 ^ (k + 1) :=
  bitLenAux_spec n n le_rfl h

theorem bitLen_le_of_lt {n b : Nat} (h : n < 2 ^ b) : bitLen n ≤ b := by
  rcases Nat.eq_zero_or_pos n with h0 | h0
  · rw [h0]; simp [bitLen, bitLenAux]
  · obtain ⟨k, hk, hlo, _⟩ := bitLen_spec h0
    rw [hk]
    have : 2 ^ k < 2 ^ b := lt_of_le_of_lt hlo h
    have := (Nat.pow_lt_pow_iff_right (by decide : 1 < 2)).mp this
    omega

theorem lt_bitLen_of_le {n b : Nat} (h : 2 ^ b ≤ n) : b < bitLen n := by
  have h0 : 0 < n := lt_of_lt_of_le (Nat.pow_pos (by decide)) h
  obtain ⟨k, hk, _, hhi⟩ := bitLen_spec h0
  rw [hk]
  have : 2 ^ b < 2 ^ (k + 1) := lt_of_le_of_lt h hhi
  exact (Nat.pow_lt_pow_iff_right (by decide : 1 < 2)).mp this

/-- The rounding of `roundSig` is to nearest: the result `q * 2^sh` lies
within half a unit `2^sh` of the value rounded, which is `n`, or a number
strictly between `n` and `n + 1` when `sticky`. -/
theorem roundSig_spec (n : Nat) (sticky : Bool) (e : Int) (hL : 53 < bitLen n) :
    ∃ q h, roundSig n sticky e = (q, e + ((bitLen n - 53 : Nat) : Int)) ∧
      2 ^ (bitLen n - 53) = 2 * h ∧
      q * 2 ^ (bitLen n - 53) ≤ n + h ∧
      n + (if sticky then 1 else 0) ≤ q * 2 ^ (bitLen n - 53) + h := by
  obtain ⟨sh, hsh⟩ : ∃ sh, bitLen n - 53 = sh + 1 := ⟨bitLen n - 54, by omega⟩
  have hp : 2 ^ (sh + 1) = 2 * 2 ^ sh := by rw [pow_succ]; ring
  have hpos : 0 < 2 ^ sh := Nat.pow_pos (by decide)
  have hdm := Nat.div_add_mod n (2 ^ (sh + 1))
  have hmod := Nat.mod_lt n (show 0 < 2 ^ (sh + 1) by rw [hp]; omega)
  unfold roundSig
  rw [if_neg (by omega)]
  simp only [hsh, Nat.add_sub_cancel]
  generalize n / 2 ^ (sh + 1) = q at *
  generalize n % 2 ^ (sh + 1) = r at *
  rw [hp] at hdm hmod ⊢
  generalize 2 ^ sh = h at *
  split
  · rename_i hc
    refine ⟨q + 1, h, rfl, rfl, ?_, ?_⟩
    · simp only [Bool.or_eq_true, decide_eq_true_eq, Bool.and_eq_true, beq_iff_eq] at hc
      have : h ≤ r := by rcases hc with hc | hc <;> omega
      nlinarith
    · split <;> nlinarith
  · rename_i hc
    simp only [Bool.or_eq_true, decide_eq_true_eq, Bool.and_eq_true, beq_iff_eq, not_or,
      not_and, not_lt] at hc
    refine ⟨q, h, rfl, rfl, by nlinarith, ?_⟩
    cases sticky with
    | true =>
      have : r ≠ h := fun e => by simpa using hc.2 e
      simp only [if_true]
      have : r < h := by omega
      nlinarith
    | false =>
      simp only [Bool.false_eq_true, if_false, add_zero]
      nlinarith [hc.1]

/-- A `long` of magnitude below `2^53` converts to `double` exactly. -/
theorem Double.ofLong_exact (x : Int) (h : x.natAbs < 2 ^ 53) :
    Double.ofLong x = Double.finite (decide (x < 0)) x.natAbs 0 := by
  unfold Double.ofLong roundSig
  rw [if_pos (bitLen_le_of_lt h)]

/-- The quotient of two exactly converted integers `a / b`, in integers: the
significand `q` and the shift `sh` of the result satisfy
`|q * 2^sh * b - a * 2^k| * 2^53 ≤ a * 2^k`, where `k` is the scaling of the
division. -/
theorem div_core (s : Bool) (a b : Nat) (ha : 0 < a) (hb : 0 < b) :
    ∃ q sh : Nat, Double.div (Double.finite s a 0) (Double.finite false b 0)
        = Double.finite s q (-((55 + bitLen b : Nat) : Int) + (sh : Int)) ∧
      q * 2 ^ sh * b * 2 ^ 53 ≤ a * 2 ^ (55 + bitLen b) * 2 ^ 53 + a * 2 ^ (55 + bitLen b) ∧
      a * 2 ^ (55 + bitLen b) * 2 ^ 53 ≤ q * 2 ^ sh * b * 2 ^ 53 + a * 2 ^ (55 + bitLen b) := by
  set k := 55 + bitLen b with hk
  set N := a * 2 ^ k with hN
  have hbk : b < 2 ^ bitLen b := by
    obtain ⟨j, hj, _, hhi⟩ := bitLen_spec hb
    rw [hj]; exact hhi
  have hQ55 : 2 ^ 55 ≤ N / b := by
    rw [Nat.le_div_iff_mul_le hb]
    calc 2 ^ 55 * b ≤ 2 ^ 55 * 2 ^ bitLen b := Nat.mul_le_mul_left _ hbk.le
      _ = 2 ^ k := by rw [hk, pow_add]
      _ ≤ a * 2 ^ k := Nat.le_mul_of_pos_left _ ha
  have hL : 53 < bitLen (N / b) := by
    have := lt_bitLen_of_le hQ55
    omega
  obtain ⟨q, h, hrs, h2, hlo, hhi⟩ := roundSig_spec (N / b) (N % b != 0) (0 - 0 - (k : Int)) hL
  refine ⟨q, bitLen (N / b) - 53, ?_, ?_, ?_⟩
  · simp only [Double.div, Nat.pos_iff_ne_zero.mp hb, Nat.pos_iff_ne_zero.mp ha, if_false,
      ← hk, ← hN, hrs]
    simp
  all_goals
    have hdm := Nat.div_add_mod N b
    have hmod := Nat.mod_lt N hb
    -- the leading bit of the quotient
    obtain ⟨j, hj, hjlo, _⟩ := bitLen_spec (lt_of_lt_of_le (Nat.pow_pos (by decide)) hQ55)
    have hj2 : j = (bitLen (N / b) - 53) + 52 := by omega
    have hh53 : h * 2 ^ 53 ≤ N / b := by
      have : 2 ^ j = 2 ^ (bitLen (N / b) - 53) * 2 ^ 52 := by rw [hj2, pow_add]
      rw [this, h2] at hjlo
      calc h * 2 ^ 53 = 2 * h * 2 ^ 52 := by ring
        _ ≤ N / b := hjlo
    generalize 2 ^ (bitLen (N / b) - 53) = P at *
    generalize N / b = Q at *
    generalize N % b = R at *
    have hA : q * P * b ≤ N + h * b :=
      calc q * P * b ≤ (Q + h) * b := Nat.mul_le_mul_right b hlo
        _ = b * Q + h * b := by ring
        _ ≤ N + h * b := by omega
    have hB : N ≤ q * P * b + h * b := by
      by_cases hR : R = 0
      · simp only [hR, bne_self_eq_false, Bool.false_eq_true, if_false, add_zero] at hhi hdm
        calc N = b * Q := hdm.symm
          _ ≤ b * (q * P + h) := Nat.mul_le_mul_left b hhi
          _ = q * P * b + h * b := by ring
      · have hR' : (R != 0) = true := by simpa using hR
        simp only [hR', if_true] at hhi
        calc N ≤ b * (Q + 1) := by rw [Nat.mul_add]; omega
          _ ≤ b * (q * P + h) := Nat.mul_le_mul_left b hhi
          _ = q * P * b + h * b := by ring
    have hC : h * b * 2 ^ 53 ≤ N :=
      calc h * b * 2 ^ 53 = h * 2 ^ 53 * b := by ring
        _ ≤ Q * b := Nat.mul_le_mul_right b hh53
        _ = b * Q := by ring
        _ ≤ N := by omega
    generalize q * P * b = X at *
    generalize h * b = Y at *
    omega

/-- A rational inequality behind the error bound: if
`|X * b - N| * 2^53 ≤ N` with `N = a * K`, then `X / K` is within
`(a / b) / 2^53` of `a / b`. -/
theorem close_of_core (X a b K : ℚ) (hb : 0 < b) (hK : 0 < K)
    (h1 : X * b * 2 ^ 53 ≤ a * K * 2 ^ 53 + a * K)
    (h2 : a * K * 2 ^ 53 ≤ X * b * 2 ^ 53 + a * K) :
    |X / K - a / b| ≤ a / b / 2 ^ 53 := by
  have hKb : 0 < K * b * 2 ^ 53 := by positivity
  have e1 : X / K - a / b = (X * b * 2 ^ 53 - a * K * 2 ^ 53) / (K * b * 2 ^ 53) := by
    field_simp; ring
  have e2 : a / b / 2 ^ 53 = (a * K) / (K * b * 2 ^ 53) := by
    field_simp; ring
  rw [e1, e2, abs_le]
  constructor
  · rw [← neg_div, div_le_div_iff_of_pos_right hKb]; linarith
  · rw [div_le_div_iff_of_pos_right hKb]; linarith

/-- The `double` quotient of two 64-bit integers below `2^53` in magnitude,
with a positive divisor, is finite, has the sign of the dividend, and differs
from the exact quotient `u / r` by at most `|u / r| / 2^53`: it is the exact
quotient rounded to 53 significant bits. -/
theorem Double.div_ofLong_close (u r : Int) (hr : 0 < r) (hu : u.natAbs < 2 ^ 53)
    (hr2 : r < 2 ^ 53) :
    (∃ m e, Double.div (Double.ofLong u) (Double.ofLong r)
        = Double.finite (decide (u < 0)) m e) ∧
    |(Double.div (Double.ofLong u) (Double.ofLong r)).toRat - (u : ℚ) / r|
      ≤ |(u : ℚ) / r| / 2 ^ 53 := by
  have hrn : r.natAbs < 2 ^ 53 := by omega
  have hrpos : 0 < r.natAbs := by omega
  have hrs : decide (r < 0) = false := by simpa using hr.le
  have hrq : (r : ℚ) = (r.natAbs : ℚ) := by
    rw [Nat.cast_natAbs, abs_of_pos hr]
  have hrq0 : (0 : ℚ) < (r.natAbs : ℚ) := by exact_mod_cast hrpos
  rw [Double.ofLong_exact u hu, Double.ofLong_exact r hrn, hrs, hrq]
  rcases Nat.eq_zero_or_pos u.natAbs with h0 | h0
  · have hu0 : u = 0 := Int.natAbs_eq_zero.mp h0
    subst hu0
    simp [Double.div, Nat.pos_iff_ne_zero.mp hrpos, Double.toRat]
  · obtain ⟨q, sh, hdiv, h1, h2⟩ := div_core (decide (u < 0)) u.natAbs r.natAbs h0 hrpos
    rw [hdiv]
    refine ⟨⟨_, _, rfl⟩, ?_⟩
    set a := u.natAbs with ha
    set b := r.natAbs with hb
    set k := 55 + bitLen b with hk
    have hpow : (2 : ℚ) ^ (-(k : Int) + (sh : Int)) = (2 : ℚ) ^ sh / (2 : ℚ) ^ k := by
      rw [zpow_add₀ (by norm_num), zpow_neg, zpow_natCast, zpow_natCast]
      field_simp
    have q1 : ((q : ℚ) * 2 ^ sh) * b * 2 ^ 53 ≤ (a : ℚ) * 2 ^ k * 2 ^ 53 + a * 2 ^ k := by
      exact_mod_cast h1
    have q2 : (a : ℚ) * 2 ^ k * 2 ^ 53 ≤ ((q : ℚ) * 2 ^ sh) * b * 2 ^ 53 + a * 2 ^ k := by
      exact_mod_cast h2
    have hclose := close_of_core ((q : ℚ) * 2 ^ sh) a b (2 ^ k) hrq0 (by positivity) q1 q2
    have hab : (0 : ℚ) ≤ (a : ℚ) / b := by positivity
    by_cases hneg : u < 0
    · have huq : (u : ℚ) = -(a : ℚ) := by
        rw [ha, Nat.cast_natAbs, abs_of_neg hneg]; push_cast; ring
      simp only [Double.toRat, hneg, decide_True, if_true, hpow, huq]
      rw [neg_div, abs_neg, abs_of_nonneg hab]
      have : -1 * (q : ℚ) * (2 ^ sh / 2 ^ k) - -((a : ℚ) / b)
          = -((q : ℚ) * 2 ^ sh / 2 ^ k - a / b) := by ring
      rw [this, abs_neg]
      exact hclose
    · have huq : (u : ℚ) = (a : ℚ) := by
        rw [ha, Nat.cast_natAbs, abs_of_nonneg (not_lt.mp hneg)]
      simp only [Double.toRat, hneg, decide_False, Bool.false_eq_true, if_false, hpow, huq]
      rw [abs_of_nonneg hab]
      have : 1 * (q : ℚ) * (2 ^ sh / 2 ^ k) - (a : ℚ) / b
          = (q : ℚ) * 2 ^ sh / 2 ^ k - a / b := by ring
      rw [this]
      exact hclose

/-! ### The process statistics reporter -/

/-- C6: for every scheduling record line whose first 15 whitespace-separated
fields are, in the declared order, pid, comm, state, ppid, pgrp, session,
tty_nr, tpgid, flags, minflt, cminflt, majflt, cmajflt, utime, stime (each
numeral within the range of the variable it is read into, the state a single
character) and every positive tick rate `r`, `printProcessStats` reports as
User Mode Time the `double` quotient of the 14th field, utime, by `r` and as
Kernel Mode Time the quotient of the 15th field, stime, by `r`, each written
in the default format of `operator<<`; the other lines show the fields they
are labelled with. The quotient reported is the exact quotient rounded to 53
significant bits: for tick counts and a tick rate below `2^53` it differs from
`utime / r` (from `stime / r`) by at most the fraction `2^-53` of it. -/
theorem printProcessStats_reports (env : Env) (pid : Int) (line more : Str)
    (pidField comm : Str) (state : Char) (nums extra : List Str)
    (pid1 ppid pgrp session tty_nr tpgid flags : Int)
    (minflt cminflt majflt cmajflt utime stime : Int)
    (hfile : env.file ("/proc/".toList ++ showInt pid ++ "/stat".toList)
      = some (line ++ '\n' :: more))
    (hnl : '\n' ∉ line)
    (hfields : fields line = pidField :: comm :: [state] :: (nums ++ extra))
    (hpid : numeralValue pidField = some pid1)
    (hnums : nums.map numeralValue
      = [some ppid, some pgrp, some session, some tty_nr, some tpgid, some flags,
         some minflt, some cminflt, some majflt, some cmajflt, some utime, some stime])
    (hint : ∀ v ∈ [pid1, ppid, pgrp, session, tty_nr, tpgid], INT_MIN ≤ v ∧ v ≤ INT_MAX)
    (hflags : 0 ≤ flags ∧ flags ≤ UINT_MAX)
    (hlong : ∀ v ∈ [minflt, cminflt, majflt, cmajflt, utime, stime],
      LONG_MIN ≤ v ∧ v ≤ LONG_MAX)
    (hr : 0 < env.clkTck) :
    printProcessStats env pid
      = cout ("Process Statistics for Process ".toList ++ showInt pid1 ++ ":\n".toList
          ++ "Command: ".toList ++ comm ++ "\n".toList
          ++ "State: ".toList ++ [state] ++ "\n".toList
          ++ "Parent Process ID: ".toList ++ showInt ppid ++ "\n".toList
          ++ "Process Group ID: ".toList ++ showInt pgrp ++ "\n".toList
          ++ "Session ID: ".toList ++ showInt session ++ "\n".toList
          ++ "Minor Page Faults: ".toList ++ showInt minflt ++ "\n".toList
          ++ "Major Page Faults: ".toList ++ showInt majflt ++ "\n".toList
          ++ "Child Minor Page Faults: ".toList ++ showInt cminflt ++ "\n".toList
          ++ "Child Major Page Faults: ".toList ++ showInt cmajflt ++ "\n".toList
          ++ "User Mode Time: ".toList
          ++ showDouble (Double.div (Double.ofLong utime) (Double.ofLong env.clkTck))
          ++ " seconds\n".toList
          ++ "Kernel Mode Time: ".toList
          ++ showDouble (Double.div (Double.ofLong stime) (Double.ofLong env.clkTck))
          ++ " seconds\n".toList
          ++ "Time it took to get the data: ".toList ++ showInt env.elapsed
          ++ "us\n".toList) ∧
    (∀ t ∈ [utime, stime], t.natAbs < 2 ^ 53 → env.clkTck < 2 ^ 53 →
      |(Double.div (Double.ofLong t) (Double.ofLong env.clkTck)).toRat
          - (t : ℚ) / env.clkTck| ≤ |(t : ℚ) / env.clkTck| / 2 ^ 53) := by
  refine ⟨?_, fun t _ ht hr2 => (Double.div_ofLong_close t env.clkTck hr ht hr2).2⟩
  have i1 := hint pid1 (by simp)
  have i2 := hint ppid (by simp)
  have i3 := hint pgrp (by simp)
  have i4 := hint session (by simp)
  have i5 := hint tty_nr (by simp)
  have i6 := hint tpgid (by simp)
  have l1 := hlong minflt (by simp)
  have l2 := hlong cminflt (by simp)
  have l3 := hlong majflt (by simp)
  have l4 := hlong cmajflt (by simp)
  have l5 := hlong utime (by simp)
  have l6 := hlong stime (by simp)
  have h0 : Holds (IStream.open line) (pidField :: comm :: [state] :: (nums ++ extra)) := by
    rw [← hfields]; exact Holds.open line
  obtain ⟨s1, e1, h1⟩ := extractInt_field pid h0 hpid i1.1 i1.2
  obtain ⟨s2, e2, h2⟩ := extractString_field [] h1
  obtain ⟨s3, e3, h3⟩ := extractChar_field env.uninitChar h2
  have h3n : ∃ ts, Holds s3 (ts ++ extra) ∧ ts.map numeralValue
      = [some ppid, some pgrp, some session, some tty_nr, some tpgid, some flags,
         some minflt, some cminflt, some majflt, some cmajflt, some utime, some stime] :=
    ⟨nums, h3, hnums⟩
  obtain ⟨s4, e4, h4⟩ := extractInt_value (env.uninitLong 7) h3n i2.1 i2.2
  obtain ⟨s5, e5, h5⟩ := extractInt_value (env.uninitLong 8) h4 i3.1 i3.2
  obtain ⟨s6, e6, h6⟩ := extractInt_value (env.uninitLong 9) h5 i4.1 i4.2
  obtain ⟨s7, e7, h7⟩ := extractInt_value (env.uninitLong 10) h6 i5.1 i5.2
  obtain ⟨s8, e8, h8⟩ := extractInt_value (env.uninitLong 11) h7 i6.1 i6.2
  obtain ⟨s9, e9, h9⟩ := extractUInt_value (env.uninitLong 12) h8 hflags.1 hflags.2
  obtain ⟨s10, e10, h10⟩ := extractLong_value (env.uninitLong 13) h9 l1.1 l1.2
  obtain ⟨s11, e11, h11⟩ := extractLong_value (env.uninitLong 14) h10 l2.1 l2.2
  obtain ⟨s12, e12, h12⟩ := extractLong_value (env.uninitLong 15) h11 l3.1 l3.2
  obtain ⟨s13, e13, h13⟩ := extractLong_value (env.uninitLong 16) h12 l4.1 l4.2
  obtain ⟨s14, e14, h14⟩ := extractLong_value (env.uninitLong 17) h13 l5.1 l5.2
  obtain ⟨s15, e15, _⟩ := extractLong_value (env.uninitLong 18) h14 l6.1 l6.2
  simp only [printProcessStats, hfile, getline_open line more hnl, e1, e2, e3, e4, e5, e6, e7,
    e8, e9, e10, e11, e12, e13, e14, e15]
  simp only [cout_append_cout, List.append_assoc]
  rfl

set_option maxRecDepth 100000 in
/-- Witness of C6, the record of the specification: with utime = 250,
stime = 50 and a tick rate of 100 the report shows 2.5 seconds and
0.5 seconds. -/
theorem printProcessStats_reports_witness :
    printProcessStats
        (oneFileEnv "/proc/1/stat"
          "4242 (cat) S 1 2 3 4 -1 4194304 10 20 30 40 250 50 0 0 20\n") 1
      = cout ("Process Statistics for Process 4242:\n"
          ++ "Command: (cat)\n"
          ++ "State: S\n"
          ++ "Parent Process ID: 1\n"
          ++ "Process Group ID: 2\n"
          ++ "Session ID: 3\n"
          ++ "Minor Page Faults: 10\n"
          ++ "Major Page Faults: 30\n"
          ++ "Child Minor Page Faults: 20\n"
          ++ "Child Major Page Faults: 40\n"
          ++ "User Mode Time: 2.5 seconds\n"
          ++ "Kernel Mode Time: 0.5 seconds\n"
          ++ "Time it took to get the data: 42us\n").toList :=
  (printProcessStats_reports
      (oneFileEnv "/proc/1/stat"
        "4242 (cat) S 1 2 3 4 -1 4194304 10 20 30 40 250 50 0 0 20\n") 1
      "4242 (cat) S 1 2 3 4 -1 4194304 10 20 30 40 250 50 0 0 20".toList []
      "4242".toList "(cat)".toList 'S'
      ["1".toList, "2".toList, "3".toList, "4".toList, "-1".toList, "4194304".toList,
        "10".toList, "20".toList, "30".toList, "40".toList, "250".toList, "50".toList]
      ["0".toList, "0".toList, "20".toList]
      4242 1 2 3 4 (-1) 4194304 10 20 30 40 250 50
      (by decide) (by decide) (by decide) (by decide) (by decide) (by decide) (by decide)
      (by decide) (by decide)).1.trans (by decide)

/-- C10: the process identifier in the header line
"Process Statistics for Process <n>:" of `printProcessStats` is the integer
parsed from the first field of the scheduling record, not the pid argument:
for every pid argument and every record whose first field is an integer `n`
(within the range of `int`), standard output begins with the header showing
`n`, also when `n` differs from the argument. -/
theorem printProcessStats_header (env : Env) (pid : Int) (line more : Str)
    (first : Str) (others : List Str) (n : Int)
    (hfile : env.file ("/proc/".toList ++ showInt pid ++ "/stat".toList)
      = some (line ++ '\n' :: more))
    (hnl : '\n' ∉ line)
    (hfields : fields line = first :: others)
    (hfirst : numeralValue first = some n)
    (hlo : INT_MIN ≤ n) (hhi : n ≤ INT_MAX) :
    ("Process Statistics for Process ".toList ++ showInt n ++ ":\n".toList)
      <+: (printProcessStats env pid).out := by
  have h0 : Holds (IStream.open line) (first :: others) := by
    rw [← hfields]; exact Holds.open line
  obtain ⟨s1, e1, _⟩ := extractInt_field pid h0 hfirst hlo hhi
  have key : ∃ tail, (printProcessStats env pid).out
      = "Process Statistics for Process ".toList ++ showInt n ++ ":\n".toList ++ tail := by
    simp only [printProcessStats, hfile, getline_open line more hnl, e1]
    simp only [cout_append_cout, List.append_assoc]
    exact ⟨_, rfl⟩
  obtain ⟨tail, ht⟩ := key
  exact ⟨tail, ht.symm⟩

set_option maxRecDepth 100000 in
/-- Witness of C10: called with pid 1 on a record whose first field is 4242,
the header names process 4242. -/
theorem printProcessStats_header_witness :
    "Process Statistics for Process 4242:\n".toList
      <+: (printProcessStats
        (oneFileEnv "/proc/1/stat"
          "4242 (cat) S 1 2 3 4 -1 4194304 10 20 30 40 250 50 0 0 20\n") 1).out :=
  printProcessStats_header
    (oneFileEnv "/proc/1/stat"
      "4242 (cat) S 1 2 3 4 -1 4194304 10 20 30 40 250 50 0 0 20\n") 1
    "4242 (cat) S 1 2 3 4 -1 4194304 10 20 30 40 250 50 0 0 20".toList []
    "4242".toList
    ["(cat)".toList, "S".toList, "1".toList, "2".toList, "3".toList, "4".toList,
      "-1".toList, "4194304".toList, "10".toList, "20".toList, "30".toList, "40".toList,
      "250".toList, "50".toList, "0".toList, "0".toList, "20".toList]
    4242 (by decide) (by decide) (by decide) (by decide) (by decide) (by decide)

/-! ### `main` -/

theorem digitChar_ne_newline : ∀ d, d < 10 → Nat.digitChar d ≠ '\n' := by
  decide

theorem toDigitsCore_no_newline : ∀ (fuel n : Nat) (acc : List Char), '\n' ∉ acc →
    '\n' ∉ Nat.toDigitsCore 10 fuel n acc := by
  intro fuel
  induction fuel with
  | zero => intro n acc h; simpa [Nat.toDigitsCore] using h
  | succ f ih =>
    intro n acc h
    have hd := digitChar_ne_newline (n % 10) (Nat.mod_lt n (by decide))
    have hacc : '\n' ∉ Nat.digitChar (n % 10) :: acc := by
      intro hm
      rcases List.mem_cons.mp hm with e | e
      · exact hd e.symm
      · exact h e
    simp only [Nat.toDigitsCore]
    split
    · exact hacc
    · exact ih _ _ hacc

/-- The decimal text of an integer holds no line break. -/
theorem showInt_no_newline (i : Int) : '\n' ∉ showInt i := by
  unfold showInt Nat.toDigits
  split
  · intro hm
    rcases List.mem_cons.mp hm with e | e
    · exact absurd e (by decide)
    · exact toDigitsCore_no_newline _ _ [] (by simp) e
  · exact toDigitsCore_no_newline _ _ [] (by simp)

/-- The three ways `main` ends: a usage error when the argument count is
wrong, the "Invalid process ID" error when `std::stoi` finds no number, and
exit code 0 after the three reporters when `std::stoi` yields a value. -/
theorem main_cases (env : Env) (argv : List Str) :
    (argv.length ≠ 2 →
      main env argv = (Exit.returned 1,
        cerr ("Usage: ".toList ++ argv.headD [] ++ " <pid>\n".toList))) ∧
    (∀ prog arg, argv = [prog, arg] → stoi arg = StoiResult.invalidArgument →
      main env argv = (Exit.returned 1, cerr "Error: Invalid process ID\n".toList)) ∧
    (∀ prog arg pid, argv = [prog, arg] → stoi arg = StoiResult.value pid →
      main env argv = (Exit.returned 0,
        printMemoryUsage env pid ++ cout "\n".toList ++ printProcessStats env pid
          ++ cout "\n".toList ++ printProcessMemoryStatus env pid)) ∧
    (∀ prog arg, argv = [prog, arg] → stoi arg = StoiResult.outOfRange →
      main env argv = (Exit.terminated, ⟨[], []⟩)) := by
  refine ⟨?_, ?_, ?_, ?_⟩
  · intro h
    simp only [main, h, ne_eq, not_false_eq_true, if_true, List.append_assoc]
    rfl
  · rintro prog arg rfl h
    simp only [main, List.length_cons, List.length_nil, ne_eq, not_true_eq_false, if_false,
      List.getD_cons_succ, List.getD_cons_zero, h]
    rfl
  · rintro prog arg pid rfl h
    simp [main, h]
  · rintro prog arg rfl h
    simp [main, h]

/-- C7, evaluated where the code departs from it: for the argument
"99999999999", an integer outside the range of `int`, `std::stoi` throws
`std::out_of_range`, which the handler for `std::invalid_argument` does not
catch; `main` returns neither 1 nor 0 and prints no diagnostic of its own. -/
theorem main_out_of_range_terminates (env : Env) :
    main env ["memwatch".toList, "99999999999".toList] = (Exit.terminated, ⟨[], []⟩) ∧
    (main env ["memwatch".toList, "99999999999".toList]).1 ≠ Exit.returned 1 ∧
    (main env ["memwatch".toList, "99999999999".toList]).1 ≠ Exit.returned 0 := by
  have h : stoi "99999999999".toList = StoiResult.outOfRange := by decide
  have hm := (main_cases env ["memwatch".toList, "99999999999".toList]).2.2.2 _ _ rfl h
  rw [hm]
  exact ⟨rfl, by decide, by decide⟩

/-- C8: for every process identifier whose page-count source cannot be
opened, `printMemoryUsage` writes exactly one line on standard error, naming
the path, and nothing on standard output; and `main`, given an argument that
denotes this identifier, still runs `printProcessStats` and then
`printProcessMemoryStatus` and returns 0. -/
theorem printMemoryUsage_unreadable (env : Env) (pid : Int) (prog arg : Str)
    (hfile : env.file ("/proc/".toList ++ showInt pid ++ "/statm".toList) = none)
    (harg : stoi arg = StoiResult.value pid) :
    printMemoryUsage env pid
      = cerr ("Error: Could not open ".toList
          ++ ("/proc/".toList ++ showInt pid ++ "/statm".toList) ++ "\n".toList) ∧
    (printMemoryUsage env pid).out = [] ∧
    (printMemoryUsage env pid).err.count '\n' = 1 ∧
    main env [prog, arg]
      = (Exit.returned 0,
          cerr ("Error: Could not open ".toList
              ++ ("/proc/".toList ++ showInt pid ++ "/statm".toList) ++ "\n".toList)
            ++ cout "\n".toList ++ printProcessStats env pid
            ++ cout "\n".toList ++ printProcessMemoryStatus env pid) := by
  have h1 : printMemoryUsage env pid
      = cerr ("Error: Could not open ".toList
          ++ ("/proc/".toList ++ showInt pid ++ "/statm".toList) ++ "\n".toList) := by
    simp only [printMemoryUsage, hfile]
  refine ⟨h1, by rw [h1]; rfl, ?_, ?_⟩
  · rw [h1]
    simp only [cerr, List.count_append]
    rw [List.count_eq_zero_of_not_mem (showInt_no_newline pid)]
    rfl
  · rw [(main_cases env [prog, arg]).2.2.1 prog arg pid rfl harg, h1]

set_option maxRecDepth 100000 in
/-- Witness of C8: process 7 in an environment whose only file is the status
record of process 7. -/
theorem printMemoryUsage_unreadable_witness :
    printMemoryUsage (oneFileEnv "/proc/7/status" "Name: test\n") 7
      = cerr "Error: Could not open /proc/7/statm\n".toList ∧
    main (oneFileEnv "/proc/7/status" "Name: test\n") ["memwatch".toList, "7".toList]
      = (Exit.returned 0,
          ⟨"\n\nName: test\n".toList,
           "Error: Could not open /proc/7/statm\nError: Could not open /proc/7/stat\n".toList⟩) :=
  have h := printMemoryUsage_unreadable (oneFileEnv "/proc/7/status" "Name: test\n") 7
    "memwatch".toList "7".toList (by decide) (by decide)
  ⟨h.1.trans (by decide), h.2.2.2.trans (by decide)⟩

end Memwatch
